import Mathlib

/-!
Verification of the job-automation-suite pipeline (shallow embedding).

Text is modelled as `List Char`.  Python's module-level environment-variable
configuration (allowed-country sets, keep-unknown flags, gating toggles) is
passed to each embedded function as explicit parameters.  The tiny regular
expressions used by the scrapers are modelled by an executable matcher below;
matching is case-insensitive (all source patterns either carry `re.I` or are
applied to uppercased text, where the two semantics agree), and the character
classes `\s` / `\w` are modelled by their ASCII portions (all inputs the
claims quantify over, and all string constants in the source, are ASCII).
-/

/-- Characters Python's `str.strip()` and the regex class `\s` treat as
whitespace (ASCII portion). -/
def isWhite (c : Char) : Bool :=
  c = ' ' || c = '\t' || c = '\n' || c = '\r' || c = '\x0b' || c = '\x0c'

/-- Word characters for the regex `\b` boundary (ASCII portion of `\w`). -/
def isWordChar (c : Char) : Bool :=
  c.isAlphanum || c = '_'

/-- Python `str.upper()` (ASCII portion). -/
def upperL (s : List Char) : List Char := s.map Char.toUpper

/-- Python `str.lower()` (ASCII portion). -/
def lowerL (s : List Char) : List Char := s.map Char.toLower

/-- Remove leading whitespace. -/
def dropWhite : List Char → List Char
  | [] => []
  | c :: cs => if isWhite c then dropWhite cs else c :: cs

/-- Python `str.strip()`: remove leading and trailing whitespace. -/
def stripL (s : List Char) : List Char :=
  dropWhite (dropWhite s.reverse).reverse

/-- `needle` occurs at the head of `hay` (case-sensitive). -/
def leadMatch : List Char → List Char → Bool
  | [], _ => true
  | _ :: _, [] => false
  | a :: as, b :: bs => a = b && leadMatch as bs

/-- Case-insensitive variant of `leadMatch`. -/
def leadMatchCI (needle hay : List Char) : Bool :=
  leadMatch (lowerL needle) (lowerL hay)

/-- Python's substring test `needle in hay`. -/
def containsSub (needle : List Char) : List Char → Bool
  | [] => leadMatch needle []
  | c :: cs => leadMatch needle (c :: cs) || containsSub needle cs

/-- One element of a pattern: a literal character, a single-character class,
an optional class (`X?`), or a Kleene star over a class (`X*`). -/
inductive PatItem where
  | lit (c : Char)
  | cls (p : Char → Bool)
  | optCls (p : Char → Bool)
  | starCls (p : Char → Bool)

/-- A matching state: the last character consumed so far (needed for `\b`)
and the remaining text. -/
abbrev MatchSt := Option Char × List Char

/-- All states reachable by letting `X*` consume a prefix of the maximal
run of `p`-characters. -/
def starSplits (p : Char → Bool) : Option Char → List Char → List MatchSt
  | lastc, [] => [(lastc, [])]
  | lastc, c :: cs =>
    (lastc, c :: cs) :: (if p c then starSplits p (some c) cs else [])

/-- All states reachable by matching one pattern item from one state. -/
def stepItem (it : PatItem) (st : MatchSt) : List MatchSt :=
  match it, st with
  | .lit c, (_, text) =>
    match text with
    | [] => []
    | d :: ds => if c.toLower = d.toLower then [(some d, ds)] else []
  | .cls p, (_, text) =>
    match text with
    | [] => []
    | d :: ds => if p d then [(some d, ds)] else []
  | .optCls p, (lastc, text) =>
    (lastc, text) ::
      (match text with
       | [] => []
       | d :: ds => if p d then [(some d, ds)] else [])
  | .starCls p, (lastc, text) => starSplits p lastc text

/-- Run a whole pattern over a set of states. -/
def runPat : List PatItem → List MatchSt → List MatchSt
  | [], sts => sts
  | it :: rest, sts => runPat rest (sts.flatMap (stepItem it))

/-- All ways a pattern can match a prefix of `text`: each result records the
last character consumed (initially `lastc`) and the remaining suffix. -/
def patEnds (pat : List PatItem) (lastc : Option Char) (text : List Char) :
    List MatchSt :=
  runPat pat [(lastc, text)]

def isWordOpt : Option Char → Bool
  | none => false
  | some c => isWordChar c

/-- The zero-width `\b` assertion between two optional characters. -/
def wordBoundary (l r : Option Char) : Bool := isWordOpt l != isWordOpt r

/-- One alternative of an alternation, with optional `\b` anchors. -/
structure RegAlt where
  bndBefore : Bool
  items : List PatItem
  bndAfter : Bool

/-- Does `alt` match starting exactly at the position whose preceding
character is `prev` and whose remaining text is `t`? -/
def altHitsAt (alt : RegAlt) (prev : Option Char) (t : List Char) : Bool :=
  (!alt.bndBefore || wordBoundary prev t.head?) &&
    (patEnds alt.items prev t).any (fun e => !alt.bndAfter || wordBoundary e.1 e.2.head?)

/-- `re.search` success for an alternation: some alternative matches at some
position of the text. -/
def regexHitAux (alts : List RegAlt) : Option Char → List Char → Bool
  | prev, [] => alts.any (fun a => altHitsAt a prev [])
  | prev, c :: cs =>
    alts.any (fun a => altHitsAt a prev (c :: cs)) || regexHitAux alts (some c) cs

def regexHit (alts : List RegAlt) (t : List Char) : Bool := regexHitAux alts none t

def litItems (s : String) : List PatItem := s.data.map PatItem.lit

/-- `\s*` -/
def wsStar : PatItem := .starCls isWhite

def optDot : PatItem := .optCls (fun c => c = '.')

/-- `_REMOTE_RE = \b(remote|virtual|work\s*from\s*home|wfh)\b` -/
def remoteRE : List RegAlt :=
  [ ⟨true, litItems "remote", true⟩,
    ⟨true, litItems "virtual", true⟩,
    ⟨true, litItems "work" ++ [wsStar] ++ litItems "from" ++ [wsStar] ++ litItems "home", true⟩,
    ⟨true, litItems "wfh", true⟩ ]

/-- `_US_TOKEN_RE = \b(UNITED STATES|U\.?S\.?A?\.?|U\.?S\.?)\b` -/
def usTokenRE : List RegAlt :=
  [ ⟨true, litItems "united states", true⟩,
    ⟨true, [.lit 'u', optDot, .lit 's', optDot, .optCls (fun c => c.toLower = 'a'), optDot], true⟩,
    ⟨true, [.lit 'u', optDot, .lit 's', optDot], true⟩ ]

/-- `_CA_TOKEN_RE = \bCANADA\b` -/
def caTokenRE : List RegAlt :=
  [ ⟨true, litItems "canada", true⟩ ]

/-- `_US_STATE_ABBR`, in the order the alternation of `_US_STATE_TOKEN` lists
them (the Python set has the same elements). -/
def usStateAbbrList : List String :=
  ["AL","AK","AZ","AR","CA","CO","CT","DC","DE","FL","GA","HI","ID","IL","IN",
   "IA","KS","KY","LA","ME","MD","MA","MI","MN","MS","MO","MT","NE","NV","NH",
   "NJ","NM","NY","NC","ND","OH","OK","OR","PA","RI","SC","SD","TN","TX","UT",
   "VT","VA","WA","WV","WI","WY"]

/-- `_CA_PROV_ABBR` in alternation order. -/
def caProvAbbrList : List String :=
  ["AB","BC","MB","NB","NL","NS","NT","NU","ON","PE","QC","SK","YT"]

/-- Terminator `(?:\s|,|$)` of the state/province token patterns. -/
def abbrTerm : List Char → Bool
  | [] => true
  | c :: _ => isWhite c || c = ','

/-- First abbreviation of `abbrs` matching at the head of `t` with a valid
terminator after it (the alternation of `_US_STATE_TOKEN`/`_CA_PROV_TOKEN`). -/
def tryAbbrs (abbrs : List String) (t : List Char) : Option String :=
  abbrs.find? (fun ab => leadMatchCI ab.data t && abbrTerm (t.drop ab.data.length))

/-- One scan position of `(?:^|,\s*)(ABBR|...)(?:\s|,|$)`: either the `^`
branch (only at the very start, i.e. `prev = none`) or the `,\s*` branch.
`\s*` must end exactly where the letters begin, so it consumes the maximal
whitespace run after the comma. -/
def stateTokenAt (abbrs : List String) (prev : Option Char) (t : List Char) : Option String :=
  match (if prev = none then tryAbbrs abbrs t else none) with
  | some g => some g
  | none =>
    match t with
    | ',' :: ts => tryAbbrs abbrs (dropWhite ts)
    | _ => none

/-- `re.search` for the state/province token patterns: the captured group of
the leftmost match. -/
def stateTokenSearch (abbrs : List String) : Option Char → List Char → Option String
  | prev, [] => stateTokenAt abbrs prev []
  | prev, c :: cs =>
    match stateTokenAt abbrs prev (c :: cs) with
    | some g => some g
    | none => stateTokenSearch abbrs (some c) cs

/-- `re.search(rf"\b{re.escape(name)}\b", up)` for a fixed name. -/
def wholeWordHit (name : String) (t : List Char) : Bool :=
  regexHit [⟨true, litItems name, true⟩] t

/-- `_US_STATE_NAMES` (a Python set; only used through an existential loop,
so iteration order is irrelevant). -/
def usStateNames : List String :=
  ["ALABAMA","ALASKA","ARIZONA","ARKANSAS","CALIFORNIA","COLORADO","CONNECTICUT",
   "DELAWARE","FLORIDA","GEORGIA","HAWAII","IDAHO","ILLINOIS","INDIANA","IOWA",
   "KANSAS","KENTUCKY","LOUISIANA","MAINE","MARYLAND","MASSACHUSETTS","MICHIGAN",
   "MINNESOTA","MISSISSIPPI","MISSOURI","MONTANA","NEBRASKA","NEVADA",
   "NEW HAMPSHIRE","NEW JERSEY","NEW MEXICO","NEW YORK","NORTH CAROLINA",
   "NORTH DAKOTA","OHIO","OKLAHOMA","OREGON","PENNSYLVANIA","RHODE ISLAND",
   "SOUTH CAROLINA","SOUTH DAKOTA","TENNESSEE","TEXAS","UTAH","VERMONT",
   "VIRGINIA","WASHINGTON","WEST VIRGINIA","WISCONSIN","WYOMING",
   "DISTRICT OF COLUMBIA","WASHINGTON, D.C.","WASHINGTON DC","D.C."]

/-- `_CA_PROV_NAMES`. -/
def caProvNames : List String :=
  ["ALBERTA","BRITISH COLUMBIA","MANITOBA","NEW BRUNSWICK",
   "NEWFOUNDLAND AND LABRADOR","NOVA SCOTIA","ONTARIO","PRINCE EDWARD ISLAND",
   "QUEBEC","SASKATCHEWAN","YUKON","NORTHWEST TERRITORIES","NUNAVUT"]

/-!
Python `set[str]` values are modelled as `List String` together with the
set-style operations below; the source only ever consults such sets through
membership, emptiness and intersection-nonemptiness, for which the list model
is faithful (duplicates and order never influence those three operations).
-/

/-- Python `set.add`. -/
def setAdd (x : String) (s : List String) : List String :=
  if s.contains x then s else x :: s

/-- Python `bool(a & b)`: the intersection is non-empty. -/
def interNonempty (a b : List String) : Bool :=
  a.any (fun x => b.contains x)

/-
`_infer_countries_from_location` from `src/scrapers/greenhouse.py`, split into
one definition per block of the source function.  The copy in
`src/scrapers/ashby.py` is identical up to a redundant `re.I` flag on the
state-abbreviation pattern, which has no effect because that pattern is only
applied to uppercased text.
-/

/-- `if _US_TOKEN_RE.search(up): countries.add("US")` -/
def addUStok (up : List Char) (s : List String) : List String :=
  if regexHit usTokenRE up then setAdd "US" s else s

/-- `if _CA_TOKEN_RE.search(up): countries.add("CA")` -/
def addCAtok (up : List Char) (s : List String) : List String :=
  if regexHit caTokenRE up then setAdd "CA" s else s

/-- The `remote + country hints` block (it re-adds the same tokens). -/
def addRemote (up : List Char) (s : List String) : List String :=
  if regexHit remoteRE up then addCAtok up (addUStok up s) else s

/-- The `", NY"`-style token block for US states. -/
def addUSstate (up : List Char) (s : List String) : List String :=
  match stateTokenSearch usStateAbbrList none up with
  | some g => if usStateAbbrList.contains g then setAdd "US" s else s
  | none => s

/-- The `", ON"`-style token block for Canadian provinces. -/
def addCAprov (up : List Char) (s : List String) : List String :=
  match stateTokenSearch caProvAbbrList none up with
  | some g => if caProvAbbrList.contains g then setAdd "CA" s else s
  | none => s

/-- The full-state-name loop. -/
def addUSnames (up : List Char) (s : List String) : List String :=
  if usStateNames.any (fun n => wholeWordHit n up) then setAdd "US" s else s

/-- The full-province-name loop. -/
def addCAnames (up : List Char) (s : List String) : List String :=
  if caProvNames.any (fun n => wholeWordHit n up) then setAdd "CA" s else s

/-- The body of `_infer_countries_from_location` applied to the uppercased
stripped text, in source order. -/
def inferUp (up : List Char) : List String :=
  addCAnames up (addUSnames up (addCAprov up (addUSstate up
    (addRemote up (addCAtok up (addUStok up []))))))

/-- `src/scrapers/greenhouse.py::_infer_countries_from_location`. -/
def infer_countries_from_location (text : List Char) : List String :=
  if stripL text = [] then []
  else inferUp (upperL (stripL text))

/-- The candidate loop of `_locations_allowed`, with the `inferred_any`
accumulator made explicit. -/
def locationsLoop (allowed : List String) (keepUnknown : Bool) :
    Bool → List (List Char) → Bool
  | inferredAny, [] => if inferredAny then false else keepUnknown
  | inferredAny, cand :: rest =>
    let found := infer_countries_from_location cand
    if found ≠ [] then
      if interNonempty found allowed then true
      else locationsLoop allowed keepUnknown true rest
    else locationsLoop allowed keepUnknown inferredAny rest

/-- `src/scrapers/greenhouse.py::_locations_allowed` (and its identical Ashby
copy); the globals `GH_ALLOWED_COUNTRIES` / `GH_KEEP_UNKNOWN_COUNTRY` are the
`allowed` / `keepUnknown` parameters. -/
def locations_allowed (allowed : List String) (keepUnknown : Bool)
    (candidates : List (List Char)) : Bool :=
  if allowed = [] then true
  else locationsLoop allowed keepUnknown false candidates

/-! ### The LinkedIn link generator (`src/utils.py`) -/

def hexDigit (n : Nat) : Char := "0123456789ABCDEF".data.getD n '0'

/-- Percent-encoding of one (ASCII) character. -/
def pctEncode (c : Char) : List Char :=
  ['%', hexDigit (c.toNat / 16 % 16), hexDigit (c.toNat % 16)]

/-- Characters `urllib.parse.quote_plus` leaves unencoded. -/
def alwaysSafe (c : Char) : Bool :=
  c.isAlphanum || c = '_' || c = '.' || c = '-' || c = '~'

/-- `urllib.parse.quote_plus` (ASCII portion): safe characters kept, space
becomes `+`, everything else is percent-encoded. -/
def quote_plus (s : List Char) : List Char :=
  s.flatMap (fun c =>
    if alwaysSafe c then [c] else if c = ' ' then ['+'] else pctEncode c)

/-- The three pre-built people-search URLs of a record. -/
structure Links where
  entrySearch : List Char
  generalSearch : List Char
  alumniSearch : List Char
  deriving DecidableEq

/-- `src/utils.py::generate_linkedin_links`. -/
def generate_linkedin_links (company title : List Char) : Links :=
  let c := stripL company
  let t := stripL title
  let base := "https://www.linkedin.com/search/results/people/?keywords=".data
  let entryQ := "\"".data ++ c ++
    "\" \"Software Engineer\" NOT Senior NOT Staff NOT Principal NOT Manager".data
  let genQ := stripL ("\"".data ++ t ++ "\" \"".data ++ c ++ "\"".data)
  let alumQ := "\"".data ++ c ++ "\" alumni".data
  ⟨base ++ quote_plus entryQ, base ++ quote_plus genQ, base ++ quote_plus alumQ⟩

/-! ### The Greenhouse adapter (`src/scrapers/greenhouse.py`) -/

/-- `SENIOR_RE = \b(sr\.?|senior|staff|principal|lead|manager|director|head|vp|iii|iv|v)\b`
(shared verbatim by `greenhouse.py` and `ashby.py`). -/
def ghSeniorRE : List RegAlt :=
  [ ⟨true, [.lit 's', .lit 'r', optDot], true⟩,
    ⟨true, litItems "senior", true⟩,
    ⟨true, litItems "staff", true⟩,
    ⟨true, litItems "principal", true⟩,
    ⟨true, litItems "lead", true⟩,
    ⟨true, litItems "manager", true⟩,
    ⟨true, litItems "director", true⟩,
    ⟨true, litItems "head", true⟩,
    ⟨true, litItems "vp", true⟩,
    ⟨true, litItems "iii", true⟩,
    ⟨true, litItems "iv", true⟩,
    ⟨true, litItems "v", true⟩ ]

/-- `\b(intern|internship|co[-\s]?op)\b` -/
def internRE : List RegAlt :=
  [ ⟨true, litItems "intern", true⟩,
    ⟨true, litItems "internship", true⟩,
    ⟨true, litItems "co" ++ [.optCls (fun c => c = '-' || isWhite c)] ++ litItems "op", true⟩ ]

/-- `NEW_GRAD_HINTS` (shared verbatim by `greenhouse.py` and `ashby.py`). -/
def newGradHints : List String :=
  ["new grad", "new graduate", "university grad", "university graduate",
   "recent graduate", "graduate program", "grad program", "graduate scheme",
   "entry-level", "entry level", "early career", "early talent",
   "junior", "jr ", "jr.", "associate",
   "engineer i", "software engineer i", "developer i", "swe i", "se i",
   "engineer 1", "developer 1", "software engineer 1"]

/-- `greenhouse.py::_is_new_grad_friendly` (identical in `ashby.py`, with the
`GH_INCLUDE_INTERNS` / `ASHBY_INCLUDE_INTERNS` global as a parameter). -/
def is_new_grad_friendly (includeInterns : Bool) (title : List Char) : Bool :=
  let t := lowerL title
  if !includeInterns && regexHit internRE t then false
  else if regexHit ghSeniorRE t then false
  else newGradHints.any (fun k => containsSub k.data t)

/-- Order-preserving de-duplication of strings (the `seen`/`uniq` loops). -/
def dedupeAux (seen : List (List Char)) : List (List Char) → List (List Char)
  | [] => []
  | s :: rest =>
    if seen.contains s then dedupeAux seen rest
    else s :: dedupeAux (s :: seen) rest

/-- A raw Greenhouse job payload, reduced to the fields the scraper reads
(`title`, `absolute_url`, `location.name` and the office names, each already
extracted from its enclosing dict shape). -/
structure GHJob where
  title : List Char
  absolute_url : Option (List Char)
  locationName : Option (List Char)
  offices : List (List Char)
  deriving DecidableEq

/-- `greenhouse.py::_collect_location_strings`. -/
def collect_location_strings (j : GHJob) : List (List Char) :=
  let primary :=
    match j.locationName with
    | some n => if stripL n ≠ [] then [stripL n] else []
    | none => []
  let office := j.offices.filterMap
    (fun o => if stripL o ≠ [] then some (stripL o) else none)
  let uniq := dedupeAux [] (primary ++ office)
  if uniq = [] then ["N/A".data] else uniq

/-- Python `", ".join(...)`. -/
def joinComma : List (List Char) → List Char
  | [] => []
  | [x] => x
  | x :: y :: rest => x ++ ", ".data ++ joinComma (y :: rest)

/-- A canonical record as built by the Greenhouse scraper (the `Posted` field,
a pure reformatting of the job's timestamp, is not consulted by any claim and
is left out of the embedded record). -/
structure GHRecord where
  company : List Char
  title : List Char
  url : Option (List Char)
  location : List Char
  links : Links
  deriving DecidableEq

/-- The row built for one kept Greenhouse job. -/
def ghRow (company : List Char) (j : GHJob) : GHRecord :=
  let cands := collect_location_strings j
  { company := company
    title := j.title
    url := j.absolute_url
    location := if cands ≠ [] then joinComma cands else "N/A".data
    links := generate_linkedin_links company j.title }

/-- The filtering loop of `greenhouse.py::scrape_greenhouse_jobs`; the
`_fetch_jobs` network call is replaced by the raw `jobs` argument, and the
module-level environment flags are explicit parameters. -/
def scrape_greenhouse_jobs (allowed : List String)
    (keepUnknown newgradOnly includeInterns : Bool)
    (company : List Char) (kw : List (List Char)) : List GHJob → List GHRecord
  | [] => []
  | j :: rest =>
    let tl := lowerL j.title
    if kw ≠ [] && !(kw.any (fun k => containsSub (lowerL k) tl)) then
      scrape_greenhouse_jobs allowed keepUnknown newgradOnly includeInterns company kw rest
    else if newgradOnly && !(is_new_grad_friendly includeInterns j.title) then
      scrape_greenhouse_jobs allowed keepUnknown newgradOnly includeInterns company kw rest
    else if !(locations_allowed allowed keepUnknown (collect_location_strings j)) then
      scrape_greenhouse_jobs allowed keepUnknown newgradOnly includeInterns company kw rest
    else
      ghRow company j ::
        scrape_greenhouse_jobs allowed keepUnknown newgradOnly includeInterns company kw rest

/-! ### The Ashby adapter filter loop (`src/scrapers/ashby.py`) -/

/-- A job as returned by `ashby.py::_normalize_jobs` / `_fetch_from_html`:
`title` and `url` are present (the normalizers only push records having both)
and `location` is a plain string.  The `createdAt` timestamp is dropped: it
only feeds the `Posted` reformatting, which no claim consults. -/
structure AshbyJob where
  title : List Char
  url : List Char
  location : List Char
  deriving DecidableEq

/-- `ashby.py::_collect_location_strings` restricted to the string shape its
callers produce (`_normalize_jobs` always emits `location` as a string). -/
def ashbyCollect (raw : List Char) : List (List Char) :=
  let out := if stripL raw ≠ [] then [stripL raw] else []
  let uniq := dedupeAux [] out
  if uniq = [] then ["N/A".data] else uniq

/-- An Ashby output record (again without the `Posted` reformatting). -/
structure AshbyRecord where
  company : List Char
  title : List Char
  url : List Char
  location : List Char
  links : Links
  deriving DecidableEq

/-- The filtering loop of `ashby.py::scrape_ashby_jobs` (fetch replaced by the
`jobs` argument, environment flags as parameters).  Unlike the Greenhouse
loop, the keyword gate has no `kw and` guard, so an empty filter list rejects
every title. -/
def scrape_ashby_jobs (allowed : List String)
    (keepUnknown newgradOnly includeInterns : Bool)
    (company : List Char) (kw : List (List Char)) : List AshbyJob → List AshbyRecord
  | [] => []
  | j :: rest =>
    let tl := lowerL j.title
    if !(kw.any (fun k => containsSub (lowerL k) tl)) then
      scrape_ashby_jobs allowed keepUnknown newgradOnly includeInterns company kw rest
    else if newgradOnly && !(is_new_grad_friendly includeInterns j.title) then
      scrape_ashby_jobs allowed keepUnknown newgradOnly includeInterns company kw rest
    else if !(locations_allowed allowed keepUnknown (ashbyCollect j.location)) then
      scrape_ashby_jobs allowed keepUnknown newgradOnly includeInterns company kw rest
    else
      { company := company, title := j.title, url := j.url,
        location := joinComma (ashbyCollect j.location),
        links := generate_linkedin_links company j.title } ::
        scrape_ashby_jobs allowed keepUnknown newgradOnly includeInterns company kw rest

/-! ### Concrete fixture jobs -/

/-- A well-formed Greenhouse job fixture. -/
def ghJobW : GHJob :=
  ⟨"New Grad Software Engineer".data,
   some "https://boards.greenhouse.io/testcorp/jobs/1".data,
   some "San Francisco, CA".data, []⟩

/-- Two raw Greenhouse jobs sharing one URL with different title casing. -/
def ghDupA : GHJob :=
  ⟨"Software Engineer".data,
   some "https://boards.greenhouse.io/x/jobs/1".data,
   some "San Francisco, CA".data, []⟩

def ghDupB : GHJob :=
  ⟨"SOFTWARE ENGINEER".data,
   some "https://boards.greenhouse.io/x/jobs/1".data,
   some "San Francisco, CA".data, []⟩

/-- A Greenhouse job whose raw title is blank. -/
def ghBlankTitleJob : GHJob :=
  ⟨[], some "https://boards.greenhouse.io/x/jobs/9".data,
   some "San Francisco, CA".data, []⟩

/-- An Ashby job whose title carries both `New Grad` and the seniority
marker `IV`. -/
def ashbyC3A : AshbyJob :=
  ⟨"New Grad Software Engineer IV".data,
   "https://jobs.ashbyhq.com/x/1".data, "San Francisco, CA".data⟩

/-- The same Ashby job without the seniority marker. -/
def ashbyC3B : AshbyJob :=
  ⟨"New Grad Software Engineer".data,
   "https://jobs.ashbyhq.com/x/2".data, "San Francisco, CA".data⟩

/-! ### The Apple adapter (`src/scrapers/custom/apple.py`) -/

/-- `COUNTRY_SYNONYMS.get(code, {code})`. -/
def countrySynonyms (code : String) : List String :=
  if code = "US" then ["US", "USA", "UNITED STATES", "UNITED STATES OF AMERICA"]
  else if code = "CA" then ["CA", "CAN", "CANADA"]
  else [code]

/-- `apple.py::_loc_in_allowed`. -/
def loc_in_allowed (loc : List Char) (allowed : List String) (url : List Char)
    (localeHint : List Char) : Bool :=
  if allowed = [] then true
  else
    let s := upperL (stripL loc)
    (s ≠ [] &&
      (allowed.any (fun code => containsSub (", ".data ++ code.data) s)
       || allowed.any (fun code =>
            (countrySynonyms code).any (fun tok => containsSub tok.data s))))
    || (containsSub "/en-us/".data (lowerL url) && allowed.contains "US")
    || (containsSub "/en-ca/".data (lowerL url) && allowed.contains "CA")
    || (localeHint ≠ [] &&
        ((lowerL localeHint = "en-us".data && allowed.contains "US")
         || (lowerL localeHint = "en-ca".data && allowed.contains "CA")))

/-- `SENIOR_HINTS_RE` of `apple.py` / `microsoft.py`:
`\b(sr|senior|staff|principal|lead|architect|fellow|distinguished)\b`. -/
def seniorHintsRE : List RegAlt :=
  [ ⟨true, litItems "sr", true⟩,
    ⟨true, litItems "senior", true⟩,
    ⟨true, litItems "staff", true⟩,
    ⟨true, litItems "principal", true⟩,
    ⟨true, litItems "lead", true⟩,
    ⟨true, litItems "architect", true⟩,
    ⟨true, litItems "fellow", true⟩,
    ⟨true, litItems "distinguished", true⟩ ]

/-- `EARLY_SIGNS_RE` of `apple.py` / `microsoft.py`:
`(new\s*grad|university|graduate|early\s*career|entry\s*level|entry|junior|assoc(iate)?|intern|apprentice|engineer\s*[i1]\b)`;
the optional group `assoc(iate)?` is expanded into its two alternatives. -/
def earlySignsRE : List RegAlt :=
  [ ⟨false, litItems "new" ++ [wsStar] ++ litItems "grad", false⟩,
    ⟨false, litItems "university", false⟩,
    ⟨false, litItems "graduate", false⟩,
    ⟨false, litItems "early" ++ [wsStar] ++ litItems "career", false⟩,
    ⟨false, litItems "entry" ++ [wsStar] ++ litItems "level", false⟩,
    ⟨false, litItems "entry", false⟩,
    ⟨false, litItems "junior", false⟩,
    ⟨false, litItems "associate", false⟩,
    ⟨false, litItems "assoc", false⟩,
    ⟨false, litItems "intern", false⟩,
    ⟨false, litItems "apprentice", false⟩,
    ⟨false, litItems "engineer" ++ [wsStar, .cls (fun c => c.toLower = 'i' || c = '1')], true⟩ ]

/-- `apple.py` keyword sets (Python sets, used only through `any`). -/
def appleManagerHints : List String :=
  [" program manager", " project manager", " product manager",
   " engineering program manager", " technical program manager",
   " tpm", " epm", " mgr"]

def appleExcludeNonEng : List String :=
  ["retail", "specialist", "genius", "advisor", "accommodation"]

def appleEngTerms : List String :=
  ["engineer", "engineering", "developer", "software", "swe", "sde",
   "sdet", "qa engineer", "quality engineer",
   "machine learning", "ml", "ai",
   "ios", "android",
   "security", "sre", "devops",
   "platform", "backend", "frontend", "front end", "full stack",
   "systems", "data engineer", "compiler", "kernel", "graphics",
   "infrastructure", "cloud"]

def keepTeamCodes : List String := ["SFTWR", "MLAI", "ML", "AIML"]

/-- Python `str.title()` (ASCII portion). -/
def titleCaseAux : Bool → List Char → List Char
  | _, [] => []
  | prevCased, c :: cs =>
    (if c.isAlpha then (if prevCased then c.toLower else c.toUpper) else c)
      :: titleCaseAux c.isAlpha cs

def titleCase (s : List Char) : List Char := titleCaseAux false s

/-- The first maximal digit run following an occurrence of `marker`
(the searches `/details/(\d+)` and `/job/(\d+)`); `[]` when absent. -/
def idAfterMarker (marker : List Char) : List Char → List Char
  | [] => []
  | c :: cs =>
    if leadMatch marker (c :: cs) then
      let ds := ((c :: cs).drop marker.length).takeWhile Char.isDigit
      if ds ≠ [] then ds else idAfterMarker marker cs
    else idAfterMarker marker cs

/-- `apple.py::_job_id_from_url`. -/
def job_id_from_url (url : List Char) : List Char :=
  idAfterMarker "/details/".data url

/-- The leftmost match of `/details/\d+/?([^/?#]+)`, at one scan position. -/
def slugChar (c : Char) : Bool := !(c = '/' || c = '?' || c = '#')

def slugAt (t : List Char) : Option (List Char) :=
  if leadMatch "/details/".data t then
    let rest := t.drop "/details/".data.length
    let ds := rest.takeWhile Char.isDigit
    if ds = [] then none
    else
      let rest2 := rest.drop ds.length
      let rest3 := match rest2 with
        | '/' :: r => r
        | r => r
      let cap := rest3.takeWhile slugChar
      if cap = [] then none else some cap
  else none

def searchSlug : List Char → Option (List Char)
  | [] => none
  | c :: cs =>
    match slugAt (c :: cs) with
    | some g => some g
    | none => searchSlug cs

/-- `apple.py::_derive_title_from_url` (the `re.sub(r"\?.*$", ...)` is a no-op
because the captured slug cannot contain `?`). -/
def derive_title_from_url (url : List Char) : List Char :=
  match searchSlug url with
  | none => "Software Engineer".data
  | some slug =>
    titleCase (stripL (slug.map (fun c =>
      if c = '-' then ' ' else if c = '_' then ' ' else c)))

/-- Split a character list on a separator. -/
def splitOn (sep : Char) : List Char → List (List Char)
  | [] => [[]]
  | c :: cs =>
    let r := splitOn sep cs
    if c = sep then [] :: r
    else
      match r with
      | [] => [[c]]
      | h :: t => (c :: h) :: t

def hexVal (c : Char) : Option Nat :=
  if '0' ≤ c ∧ c ≤ '9' then some (c.toNat - '0'.toNat)
  else if 'a' ≤ c ∧ c ≤ 'f' then some (c.toNat - 'a'.toNat + 10)
  else if 'A' ≤ c ∧ c ≤ 'F' then some (c.toNat - 'A'.toNat + 10)
  else none

/-- `urllib.parse.unquote_plus` (ASCII portion). -/
def unquote_plus : List Char → List Char
  | [] => []
  | '+' :: rest => ' ' :: unquote_plus rest
  | '%' :: a :: b :: rest =>
    match hexVal a, hexVal b with
    | some ha, some hb => Char.ofNat (16 * ha + hb) :: unquote_plus rest
    | _, _ => '%' :: unquote_plus (a :: b :: rest)
  | c :: rest => c :: unquote_plus rest

/-- `apple.py::_team_code_from_url`: the first `team` query parameter's value
after the last hyphen (`parse_qs` then `split("-")[-1]`). -/
def team_code_from_url (url : List Char) : List Char :=
  let preFrag := url.takeWhile (fun c => c ≠ '#')
  let query := (preFrag.dropWhile (fun c => c ≠ '?')).drop 1
  let pairs := splitOn '&' query
  let teamVals := pairs.filterMap (fun p =>
    let k := p.takeWhile (fun c => c ≠ '=')
    let v := (p.dropWhile (fun c => c ≠ '=')).drop 1
    if unquote_plus k = "team".data && v ≠ [] then some (unquote_plus v) else none)
  match teamVals with
  | [] => []
  | v :: _ => (splitOn '-' v).getLastD v

/-- `apple.py::_looks_engineering`. -/
def looks_engineering (title url : List Char) : Bool :=
  let t := lowerL title
  if !(containsSub "app store".data t)
      && appleExcludeNonEng.any (fun h => containsSub h.data t) then false
  else if appleManagerHints.any (fun h => containsSub h.data t) then false
  else if appleEngTerms.any (fun k => containsSub k.data t) then true
  else if keepTeamCodes.any (fun tag =>
      containsSub tag.data (upperL (team_code_from_url url))) then true
  else if containsSub "/retail/".data (lowerL url) then false
  else false

/-- A pooled raw item harvested by `_collect_from_dom` (title text, detail
URL, location hint, locale hint). -/
structure AppleItem where
  title : List Char
  url : List Char
  location : List Char
  locale : List Char
  deriving DecidableEq

structure AppleRecord where
  company : List Char
  title : List Char
  url : List Char
  location : List Char
  links : Links
  deriving DecidableEq

/-- One iteration of the strict filter-and-dedupe loop of
`apple.py::scrape_apple_jobs`: the kept record (if any) together with the
updated `seen_ids` / `seen_pairs` accumulators.  The env flags
`APPLE_SENIORITY_TRIM` / `APPLE_EARLY_ONLY` and the allowed-country set are
parameters. -/
def appleStrictStep (allowed : List String) (strim eonly : Bool)
    (seenIds : List (List Char)) (seenPairs : List (List Char × List Char))
    (it : AppleItem) :
    Option AppleRecord × List (List Char) × List (List Char × List Char) :=
  let url := stripL it.url
  if url = [] then (none, seenIds, seenPairs)
  else
    let rawTitle := stripL it.title
    let title := if rawTitle ≠ [] then rawTitle else derive_title_from_url url
    let jid := job_id_from_url url
    if jid ≠ [] && seenIds.contains jid then (none, seenIds, seenPairs)
    else if jid = [] && seenPairs.contains (title, url) then (none, seenIds, seenPairs)
    else
      let seenIds2 := if jid ≠ [] then jid :: seenIds else seenIds
      let seenPairs2 := if jid = [] then (title, url) :: seenPairs else seenPairs
      if !(loc_in_allowed it.location allowed url it.locale) then
        (none, seenIds2, seenPairs2)
      else if !(looks_engineering title url) then
        (none, seenIds2, seenPairs2)
      else if strim && regexHit seniorHintsRE title && !(regexHit earlySignsRE title) then
        (none, seenIds2, seenPairs2)
      else if eonly && !(regexHit earlySignsRE title) then
        (none, seenIds2, seenPairs2)
      else
        (some { company := "Apple".data, title := title, url := url,
                location := it.location,
                links := generate_linkedin_links "Apple".data title },
         seenIds2, seenPairs2)

/-- The strict filter loop, iterating `appleStrictStep`. -/
def appleStrictAux (allowed : List String) (strim eonly : Bool)
    (seenIds : List (List Char)) (seenPairs : List (List Char × List Char)) :
    List AppleItem → List AppleRecord
  | [] => []
  | it :: rest =>
    match appleStrictStep allowed strim eonly seenIds seenPairs it with
    | (none, ids, prs) => appleStrictAux allowed strim eonly ids prs rest
    | (some r, ids, prs) => r :: appleStrictAux allowed strim eonly ids prs rest

/-- One iteration of the relaxed rescue pass of `apple.py::scrape_apple_jobs`
(runs only when the strict pass kept nothing; de-duplicates by job id only). -/
def appleRelaxedStep (allowed : List String) (seenIds : List (List Char))
    (it : AppleItem) : Option AppleRecord × List (List Char) :=
  let url := stripL it.url
  if url = [] then (none, seenIds)
  else if !(loc_in_allowed it.location allowed url it.locale) then (none, seenIds)
  else if !(keepTeamCodes.any (fun tag =>
      containsSub tag.data (upperL (team_code_from_url url)))) then (none, seenIds)
  else
    let title := if stripL it.title ≠ [] then stripL it.title
      else derive_title_from_url url
    let jid := job_id_from_url url
    if jid ≠ [] && seenIds.contains jid then (none, seenIds)
    else
      let seenIds2 := if jid ≠ [] then jid :: seenIds else seenIds
      (some { company := "Apple".data, title := title, url := url,
              location := it.location,
              links := generate_linkedin_links "Apple".data title },
       seenIds2)

/-- The relaxed rescue loop, iterating `appleRelaxedStep`. -/
def appleRelaxedAux (allowed : List String) (seenIds : List (List Char)) :
    List AppleItem → List AppleRecord
  | [] => []
  | it :: rest =>
    match appleRelaxedStep allowed seenIds it with
    | (none, ids) => appleRelaxedAux allowed ids rest
    | (some r, ids) => r :: appleRelaxedAux allowed ids rest

/-- `apple.py::scrape_apple_jobs` after harvesting: the browser-automation
harvest is replaced by the `pooled` list argument; the kept list is the strict
pass, or the relaxed rescue pass when the strict pass kept nothing. -/
def scrape_apple_jobs (allowed : List String) (strim eonly : Bool)
    (pooled : List AppleItem) : List AppleRecord :=
  let strict := appleStrictAux allowed strim eonly [] [] pooled
  if strict = [] then appleRelaxedAux allowed [] pooled else strict

/-- Two pooled Apple items sharing one detail URL (with numeric job id) and
differing only in title casing. -/
def appleDupA : AppleItem :=
  ⟨"New Grad Software Engineer".data,
   "https://jobs.apple.com/en-us/details/123456/new-grad-software-engineer?team=apps-and-frameworks-SFTWR-AF".data,
   "San Jose, CA".data, "en-us".data⟩

def appleDupB : AppleItem :=
  ⟨"NEW GRAD SOFTWARE ENGINEER".data,
   "https://jobs.apple.com/en-us/details/123456/new-grad-software-engineer?team=apps-and-frameworks-SFTWR-AF".data,
   "San Jose, CA".data, "en-us".data⟩

/-! ### The Microsoft adapter (`src/scrapers/custom/microsoft.py`) -/

/-- `MANAGER_HINTS` of `microsoft.py`. -/
def msftManagerHints : List String :=
  [" program manager", " product manager", " project manager",
   " technical program manager", " tpm", " pm ", " manager", " director"]

/-- `microsoft.py::_looks_manager` (argument already lowercased by the caller). -/
def looksManager (tl : List Char) : Bool :=
  msftManagerHints.any (fun h => containsSub h.data tl)

/-- `RELAXED_KEYS` of `microsoft.py`. -/
def relaxedKeys : List String :=
  ["engineer", "developer", "software", "swe", "sde",
   "sdet", "qa", "reliability", "security", "platform", "systems"]

/-- `microsoft.py::_job_id_from_url`. -/
def msft_job_id_from_url (url : List Char) : List Char :=
  idAfterMarker "/job/".data url

/-- A pooled Microsoft item (network-captured or DOM-harvested). -/
structure MsftItem where
  title : List Char
  url : List Char
  location : List Char
  deriving DecidableEq

structure MsftRecord where
  company : List Char
  title : List Char
  url : List Char
  location : List Char
  links : Links
  deriving DecidableEq

/-- One iteration of the filter loop of `microsoft.py::scrape_microsoft_jobs`
(env flags `MSFT_SENIORITY_TRIM` / `MSFT_EARLY_ONLY` as parameters).  Note
that the loop applies no location filter of any kind. -/
def msftStep (strim eonly : Bool) (kw : List (List Char))
    (seenIds : List (List Char)) (seenPairs : List (List Char × List Char))
    (it : MsftItem) :
    Option MsftRecord × List (List Char) × List (List Char × List Char) :=
  let title := stripL it.title
  let url := stripL it.url
  if url = [] || title = [] then (none, seenIds, seenPairs)
  else
    let jid := msft_job_id_from_url url
    if jid ≠ [] && seenIds.contains jid then (none, seenIds, seenPairs)
    else if jid = [] && seenPairs.contains (title, url) then (none, seenIds, seenPairs)
    else
      let seenIds2 := if jid ≠ [] then jid :: seenIds else seenIds
      let seenPairs2 := if jid = [] then (title, url) :: seenPairs else seenPairs
      let t := lowerL title
      if looksManager t && !(regexHit earlySignsRE title) then
        (none, seenIds2, seenPairs2)
      else if !(kw.any (fun k => containsSub (lowerL k) t)
          || relaxedKeys.any (fun k => containsSub k.data t)) then
        (none, seenIds2, seenPairs2)
      else if strim && regexHit seniorHintsRE title && !(regexHit earlySignsRE title) then
        (none, seenIds2, seenPairs2)
      else if eonly && !(regexHit earlySignsRE title) then
        (none, seenIds2, seenPairs2)
      else
        (some { company := "Microsoft".data, title := title, url := url,
                location := it.location,
                links := generate_linkedin_links "Microsoft".data title },
         seenIds2, seenPairs2)

/-- The Microsoft filter loop, iterating `msftStep`. -/
def msftAux (strim eonly : Bool) (kw : List (List Char))
    (seenIds : List (List Char)) (seenPairs : List (List Char × List Char)) :
    List MsftItem → List MsftRecord
  | [] => []
  | it :: rest =>
    match msftStep strim eonly kw seenIds seenPairs it with
    | (none, ids, prs) => msftAux strim eonly kw ids prs rest
    | (some r, ids, prs) => r :: msftAux strim eonly kw ids prs rest

/-- `microsoft.py::scrape_microsoft_jobs` after harvesting: the browser
harvest (network captures followed by DOM anchors) is replaced by the `pool`
list argument. -/
def scrape_microsoft_jobs (strim eonly : Bool) (kw : List (List Char))
    (pool : List MsftItem) : List MsftRecord :=
  msftAux strim eonly kw [] [] pool

/-! ### The Lever adapter, JSON-API path (`src/scrapers/lever.py`) -/

/-- A Lever API posting, reduced to the fields the scraper reads; a missing
field and an empty string coincide (the source merges them with `or`). -/
structure LeverPost where
  text : List Char
  title : List Char
  hostedUrl : List Char
  applyUrl : List Char
  categoriesLocation : List Char
  deriving DecidableEq

structure LeverRecord where
  company : List Char
  title : List Char
  url : List Char
  location : List Char
  entrySearch : List Char
  generalSearch : List Char
  deriving DecidableEq

/-- `lever.py::_title_matches`. -/
def title_matches (title : List Char) (kw : List (List Char)) : Bool :=
  kw.any (fun k => containsSub (lowerL k) (lowerL title))

/-- `lever.py::_absolute_lever_link`. -/
def absolute_lever_link (href : List Char) : List Char :=
  if href = [] then []
  else if leadMatch "http".data href then href
  else if leadMatch "/".data href then "https://jobs.lever.co".data ++ href
  else "https://jobs.lever.co/".data ++ href.dropWhile (fun c => c = '/')

/-- The JSON-API loop of `lever.py::scrape_lever_jobs` (fetch replaced by the
posting list).  Note: no location classifier is consulted anywhere — the
`categories.location` string is copied into the record unchecked. -/
def scrape_lever_jobs (company : List Char) (kw : List (List Char)) :
    List LeverPost → List LeverRecord
  | [] => []
  | p :: rest =>
    let title := stripL (if p.text ≠ [] then p.text else p.title)
    if title = [] || !(title_matches title kw) then
      scrape_lever_jobs company kw rest
    else
      let url := absolute_lever_link
        (stripL (if p.hostedUrl ≠ [] then p.hostedUrl else p.applyUrl))
      if url = [] then scrape_lever_jobs company kw rest
      else
        let loc0 := stripL p.categoriesLocation
        let links := generate_linkedin_links company title
        { company := company, title := title, url := url,
          location := if loc0 = [] then "N/A".data else loc0,
          entrySearch := links.entrySearch,
          generalSearch := links.generalSearch } ::
          scrape_lever_jobs company kw rest

/-! ### The orchestrator (`src/main.py::run_scrapers`) -/

/-- Python `set.add` for arbitrary `BEq` keys. -/
def setAddG {α : Type} [BEq α] (x : α) (s : List α) : List α :=
  if s.contains x then s else x :: s

/-- A merged job dict as seen by the orchestrator loop: its `URL` value and an
opaque tag standing for all remaining report fields. -/
structure MainJob where
  url : Option (List Char)
  tag : Nat
  deriving DecidableEq

/-- `(job.get("URL") or "").strip()`. -/
def jobUrl (j : MainJob) : List Char := stripL (j.url.getD [])

/-- The de-dupe loop of `run_scrapers` (main.py lines 386-401): builds
`new_jobs_found` and `current_job_urls` over the merged job list. -/
def mainLoopAux (seen : List (List Char)) (newAcc : List MainJob)
    (urlAcc : List (List Char)) : List MainJob → List MainJob × List (List Char)
  | [] => (newAcc, urlAcc)
  | j :: rest =>
    let url := jobUrl j
    if url = [] then mainLoopAux seen newAcc urlAcc rest
    else
      mainLoopAux seen
        (if seen.contains url then newAcc else newAcc ++ [j])
        (setAddG url urlAcc) rest

/-- The observable outcome of one orchestrator run. -/
structure RunOutcome where
  configFailed : Bool
  adaptersInvoked : Bool
  newJobs : List MainJob
  saved : Option (List (List Char))
  deriving DecidableEq

/-- `main.py::run_scrapers`, shallowly embedded: `config` is `none` when the
configuration file is missing (the `FileNotFoundError` branch), and otherwise
carries the per-company adapter results (each adapter call's returned list);
`saved = none` means the seen-jobs state file was never written. -/
def run_scrapers (config : Option (List (List MainJob)))
    (seen : List (List Char)) : RunOutcome :=
  match config with
  | none => ⟨true, false, [], none⟩
  | some adapterResults =>
    let allCurrent := adapterResults.flatten
    if allCurrent = [] then ⟨false, true, [], some seen⟩
    else
      let res := mainLoopAux seen [] [] allCurrent
      ⟨false, true, res.1, some res.2⟩

/-- The last character before the scan position reached after walking `pre`. -/
def lastOf (prev : Option Char) : List Char → Option Char
  | [] => prev
  | c :: cs => lastOf (some c) cs

/-- A concrete Microsoft pool item whose title carries both a seniority
marker and `New Grad`. -/
def msftSeniorNewGrad : MsftItem :=
  ⟨"Senior New Grad Software Engineer".data,
   "https://jobs.careers.microsoft.com/global/en/job/777777/Senior-New-Grad-Software-Engineer".data,
   "Redmond, WA".data⟩

/-- A concrete pooled Apple item whose title carries both an early-career
marker (`New Grad`) and an Apple manager hint (` program manager`); the URL
carries no `team` query parameter, so the relaxed rescue pass cannot keep it
either. -/
def appleNewGradPM : AppleItem :=
  ⟨"New Grad Program Manager".data,
   "https://jobs.apple.com/en-us/details/999999/new-grad-program-manager".data,
   "Cupertino, CA".data, "en-us".data⟩

/-! ### C4: location gating across adapters -/

/-- A Lever API posting located in Toronto. -/
def leverTorontoPost : LeverPost :=
  ⟨"Software Engineer".data, [], "https://jobs.lever.co/x/123".data, [],
   "Toronto, ON".data⟩

/-- The two merged jobs of end-to-end scenario C. -/
def mainJob1 : MainJob := ⟨some "http://a.com/1".data, 0⟩
def mainJob2 : MainJob := ⟨some "http://a.com/2".data, 1⟩

/-! ## Theorems -/
/-! ### Generic lemmas about the text and set helpers -/

theorem leadMatch_append (x y : List Char) : leadMatch x (x ++ y) = true := by
  induction x with
  | nil => rfl
  | cons a as ih => simp [leadMatch, ih]

theorem lowerL_append (x y : List Char) : lowerL (x ++ y) = lowerL x ++ lowerL y :=
  List.map_append _ x y

theorem dropWhite_white_append (ws t : List Char) (h : ∀ c ∈ ws, isWhite c = true) :
    dropWhite (ws ++ t) = dropWhite t := by
  induction ws with
  | nil => rfl
  | cons c cs ih =>
    have hc : isWhite c = true := h c (by simp)
    simp [dropWhite, hc]
    exact ih (fun d hd => h d (by simp [hd]))

theorem dropWhite_not_white (c : Char) (cs : List Char) (h : isWhite c = false) :
    dropWhite (c :: cs) = c :: cs := by
  simp [dropWhite, h]

theorem mem_setAdd_self (a : String) (s : List String) : a ∈ setAdd a s := by
  unfold setAdd
  split
  · next h => exact List.elem_iff.mp h
  · exact List.mem_cons_self a s

theorem mem_setAdd_of_mem (a b : String) (s : List String) (h : a ∈ s) :
    a ∈ setAdd b s := by
  unfold setAdd
  split
  · exact h
  · exact List.mem_cons_of_mem _ h

/-! ### Lemmas about the state-token search -/

theorem tryAbbrs_mem (abbrs : List String) (t : List Char) (g : String)
    (h : tryAbbrs abbrs t = some g) : g ∈ abbrs :=
  List.mem_of_find?_eq_some h

theorem tryAbbrs_isSome (abbrs : List String) (t : List Char) (ab : String)
    (hmem : ab ∈ abbrs)
    (hlead : leadMatchCI ab.data t = true)
    (hterm : abbrTerm (t.drop ab.length) = true) :
    tryAbbrs abbrs t ≠ none := by
  have : (tryAbbrs abbrs t).isSome := by
    rw [tryAbbrs, List.find?_isSome]
    exact ⟨ab, hmem, by simp [hlead, hterm]⟩
  intro hnone
  rw [hnone] at this
  exact Bool.noConfusion this

theorem stateTokenAt_mem (abbrs : List String) (prev : Option Char) (t : List Char)
    (g : String) (h : stateTokenAt abbrs prev t = some g) : g ∈ abbrs := by
  unfold stateTokenAt at h
  split at h
  · next h1 =>
    cases h
    split at h1
    · exact tryAbbrs_mem _ _ _ h1
    · exact Option.noConfusion h1
  · split at h
    · exact tryAbbrs_mem _ _ _ h
    · exact Option.noConfusion h

theorem stateTokenSearch_mem (abbrs : List String) (t : List Char) :
    ∀ (prev : Option Char) (g : String),
      stateTokenSearch abbrs prev t = some g → g ∈ abbrs := by
  induction t with
  | nil =>
    intro prev g h
    rw [stateTokenSearch] at h
    exact stateTokenAt_mem _ _ _ _ h
  | cons c cs ih =>
    intro prev g h
    rw [stateTokenSearch] at h
    split at h
    · next heq => cases h; exact stateTokenAt_mem _ _ _ _ heq
    · exact ih _ _ h

theorem stateTokenSearch_some_of_comma (abbrs : List String) (pre : List Char) :
    ∀ (prev : Option Char) (tail : List Char),
      tryAbbrs abbrs (dropWhite tail) ≠ none →
      stateTokenSearch abbrs prev (pre ++ ',' :: tail) ≠ none := by
  induction pre with
  | nil =>
    intro prev tail h
    rw [List.nil_append, stateTokenSearch]
    have hAt : stateTokenAt abbrs prev (',' :: tail) ≠ none := by
      unfold stateTokenAt
      split
      · simp
      · simpa using h
    split
    · simp
    · next heq => exact absurd heq hAt
  | cons c cs ih =>
    intro prev tail h
    rw [List.cons_append, stateTokenSearch]
    split
    · simp
    · exact ih _ _ h

/-! ### Lemmas about the location-allow loop -/

theorem locationsLoop_false_of_all_inter_false
    (allowed : List String) (ku : Bool) (cands : List (List Char))
    (h : ∀ c ∈ cands, interNonempty (infer_countries_from_location c) allowed = false) :
    locationsLoop allowed ku true cands = false := by
  induction cands with
  | nil => rfl
  | cons c cs ih =>
    rw [locationsLoop]
    have hc := h c (by simp)
    split
    · rw [if_neg (by simp [hc])]
      exact ih (fun d hd => h d (by simp [hd]))
    · exact ih (fun d hd => h d (by simp [hd]))

theorem locationsLoop_false_of_rejected
    (allowed : List String) (ku : Bool) (cands : List (List Char))
    (hne : ∃ c ∈ cands, infer_countries_from_location c ≠ [])
    (h : ∀ c ∈ cands, interNonempty (infer_countries_from_location c) allowed = false) :
    ∀ ia, locationsLoop allowed ku ia cands = false := by
  induction cands with
  | nil => exact absurd hne (by simp)
  | cons c cs ih =>
    intro ia
    rw [locationsLoop]
    have hc := h c (by simp)
    split
    · rw [if_neg (by simp [hc])]
      exact locationsLoop_false_of_all_inter_false allowed ku cs
        (fun d hd => h d (by simp [hd]))
    · next hemp =>
      have hemp' : infer_countries_from_location c = [] := by
        by_contra hcon
        exact hemp hcon
      have hne' : ∃ d ∈ cs, infer_countries_from_location d ≠ [] := by
        obtain ⟨d, hd, hdne⟩ := hne
        rcases List.mem_cons.mp hd with rfl | hd'
        · exact absurd hemp' hdne
        · exact ⟨d, hd', hdne⟩
      exact ih hne' (fun d hd => h d (by simp [hd])) ia

theorem locationsLoop_true_of_accepted
    (allowed : List String) (ku : Bool) (cands : List (List Char))
    (hacc : ∃ c ∈ cands, interNonempty (infer_countries_from_location c) allowed = true) :
    ∀ ia, locationsLoop allowed ku ia cands = true := by
  induction cands with
  | nil => exact absurd hacc (by simp)
  | cons c cs ih =>
    intro ia
    by_cases hc : interNonempty (infer_countries_from_location c) allowed = true
    · have hne : infer_countries_from_location c ≠ [] := by
        intro hemp
        rw [hemp] at hc
        exact Bool.noConfusion hc
      simp [locationsLoop, hne, hc]
    · have hc' : interNonempty (infer_countries_from_location c) allowed = false :=
        Bool.eq_false_iff.mpr hc
      have hacc' : ∃ d ∈ cs, interNonempty (infer_countries_from_location d) allowed = true := by
        obtain ⟨d, hd, hdt⟩ := hacc
        rcases List.mem_cons.mp hd with rfl | hd'
        · exact absurd hdt hc
        · exact ⟨d, hd', hdt⟩
      by_cases hemp : infer_countries_from_location c = []
      · simp only [locationsLoop, hemp, ne_eq, not_true_eq_false, if_false,
          reduceIte]
        exact ih hacc' ia
      · simp only [locationsLoop, hemp, ne_eq, not_false_eq_true, if_true, hc',
          Bool.false_eq_true, reduceIte]
        exact ih hacc' true

theorem locationsLoop_unknown
    (allowed : List String) (ku : Bool) (cands : List (List Char))
    (h : ∀ c ∈ cands, infer_countries_from_location c = []) :
    ∀ ia, locationsLoop allowed ku ia cands = if ia then false else ku := by
  induction cands with
  | nil => intro ia; rfl
  | cons c cs ih =>
    intro ia
    rw [locationsLoop]
    have hc := h c (by simp)
    rw [if_neg (by simp [hc])]
    exact ih (fun d hd => h d (by simp [hd])) ia

/-! ### Monotonicity of the country-adding blocks -/

theorem mem_addUStok (x : String) (up : List Char) (s : List String) (h : x ∈ s) :
    x ∈ addUStok up s := by
  unfold addUStok; split
  · exact mem_setAdd_of_mem _ _ _ h
  · exact h

theorem mem_addCAtok (x : String) (up : List Char) (s : List String) (h : x ∈ s) :
    x ∈ addCAtok up s := by
  unfold addCAtok; split
  · exact mem_setAdd_of_mem _ _ _ h
  · exact h

theorem mem_addRemote (x : String) (up : List Char) (s : List String) (h : x ∈ s) :
    x ∈ addRemote up s := by
  unfold addRemote; split
  · exact mem_addCAtok _ _ _ (mem_addUStok _ _ _ h)
  · exact h

theorem mem_addUSstate (x : String) (up : List Char) (s : List String) (h : x ∈ s) :
    x ∈ addUSstate up s := by
  unfold addUSstate
  split
  · split
    · exact mem_setAdd_of_mem _ _ _ h
    · exact h
  · exact h

theorem mem_addCAprov (x : String) (up : List Char) (s : List String) (h : x ∈ s) :
    x ∈ addCAprov up s := by
  unfold addCAprov
  split
  · split
    · exact mem_setAdd_of_mem _ _ _ h
    · exact h
  · exact h

theorem mem_addUSnames (x : String) (up : List Char) (s : List String) (h : x ∈ s) :
    x ∈ addUSnames up s := by
  unfold addUSnames; split
  · exact mem_setAdd_of_mem _ _ _ h
  · exact h

theorem mem_addCAnames (x : String) (up : List Char) (s : List String) (h : x ∈ s) :
    x ∈ addCAnames up s := by
  unfold addCAnames; split
  · exact mem_setAdd_of_mem _ _ _ h
  · exact h

/-- Every US state abbreviation is a two-letter word starting with a
non-whitespace character. -/
theorem usStateAbbr_head :
    usStateAbbrList.all (fun ab =>
      match ab.data with
      | c :: _ => !isWhite c
      | [] => false) = true := by decide

/-- If the US state-token pattern finds a match, the `US` code is added. -/
theorem mem_addUSstate_of_search (up : List Char) (s : List String) (g : String)
    (hs : stateTokenSearch usStateAbbrList none up = some g) :
    "US" ∈ addUSstate up s := by
  have hg : g ∈ usStateAbbrList := stateTokenSearch_mem _ _ _ _ hs
  have hrw : addUSstate up s
      = if usStateAbbrList.contains g = true then setAdd "US" s else s := by
    unfold addUSstate
    rw [hs]
  rw [hrw, if_pos (by exact List.elem_iff.mpr hg)]
  exact mem_setAdd_self _ _

/-- C8: for every location string whose uppercased stripped text contains a US
state abbreviation preceded by a comma (with optional whitespace) and followed
by whitespace, a comma, or the end of the text, the inferred country set of
`_infer_countries_from_location` contains `"US"`. -/
theorem C8_comma_state_abbreviation_infers_US
    (s : List Char) (ab : String) (pre ws rest : List Char)
    (hab : ab ∈ usStateAbbrList)
    (hdec : upperL (stripL s) = pre ++ ',' :: (ws ++ (ab.data ++ rest)))
    (hws : ∀ c ∈ ws, isWhite c = true)
    (hterm : abbrTerm rest = true) :
    "US" ∈ infer_countries_from_location s := by
  -- the stripped text is non-empty
  have hne : stripL s ≠ [] := by
    intro h0
    rw [h0] at hdec
    simp [upperL] at hdec
  -- the abbreviation starts with a non-whitespace character
  obtain ⟨c0, cs0, habdata, habw⟩ :
      ∃ c0 cs0, ab.data = c0 :: cs0 ∧ isWhite c0 = false := by
    have := List.all_eq_true.mp usStateAbbr_head ab hab
    cases habd : ab.data with
    | nil => rw [habd] at this; exact absurd this (by simp)
    | cons c0 cs0 =>
      rw [habd] at this
      exact ⟨c0, cs0, rfl, by simpa using this⟩
  -- the whitespace-skip after the comma lands exactly on the abbreviation
  have hdw : dropWhite (ws ++ (ab.data ++ rest)) = ab.data ++ rest := by
    rw [dropWhite_white_append ws _ hws, habdata]
    exact dropWhite_not_white _ _ habw
  -- hence the abbreviation alternation succeeds there
  have htry : tryAbbrs usStateAbbrList (dropWhite (ws ++ (ab.data ++ rest))) ≠ none := by
    rw [hdw]
    refine tryAbbrs_isSome _ _ ab hab ?_ ?_
    · unfold leadMatchCI
      rw [lowerL_append]
      exact leadMatch_append _ _
    · have : ab.length = ab.data.length := rfl
      rw [this, List.drop_left]
      exact hterm
  -- so the regex search over the whole text succeeds
  have hsearch : stateTokenSearch usStateAbbrList none (upperL (stripL s)) ≠ none := by
    rw [hdec]
    exact stateTokenSearch_some_of_comma _ pre none _ htry
  obtain ⟨g, hg⟩ := Option.ne_none_iff_exists'.mp hsearch
  -- membership flows through the remaining blocks
  unfold infer_countries_from_location
  rw [if_neg hne]
  unfold inferUp
  exact mem_addCAnames _ _ _ (mem_addUSnames _ _ _ (mem_addCAprov _ _ _
    (mem_addUSstate_of_search _ _ g hg)))

/-- Witness for C8 at the location string `"Austin, TX"`. -/
theorem C8_comma_state_abbreviation_infers_US_witness :
    "US" ∈ infer_countries_from_location "Austin, TX".data :=
  C8_comma_state_abbreviation_infers_US "Austin, TX".data "TX"
    "AUSTIN".data [' '] []
    (by decide) (by decide) (by decide) (by decide)

/-- C5: the allowed-location decision of `_locations_allowed`: a wildcard
(empty) allow-list accepts unconditionally; a candidate whose inferred country
set intersects the allow-list forces acceptance, and the decision does not
depend on candidates listed after such a candidate; if no candidate infers any
country, the configurable `keepUnknown` flag is returned; and if some
candidate infers countries but no candidate's inferred countries intersect the
allow-list, the location is rejected regardless of `keepUnknown`. -/
theorem C5_locations_allowed_decision (allowed : List String) (ku : Bool) :
    (allowed = [] → ∀ cands, locations_allowed allowed ku cands = true)
    ∧ (∀ cands c, c ∈ cands →
        interNonempty (infer_countries_from_location c) allowed = true →
        locations_allowed allowed ku cands = true)
    ∧ (∀ pre c post post',
        interNonempty (infer_countries_from_location c) allowed = true →
        locations_allowed allowed ku (pre ++ c :: post)
          = locations_allowed allowed ku (pre ++ c :: post'))
    ∧ (allowed ≠ [] → ∀ cands,
        (∀ c ∈ cands, infer_countries_from_location c = []) →
        locations_allowed allowed ku cands = ku)
    ∧ (allowed ≠ [] → ∀ cands,
        (∃ c ∈ cands, infer_countries_from_location c ≠ []) →
        (∀ c ∈ cands,
          interNonempty (infer_countries_from_location c) allowed = false) →
        locations_allowed allowed ku cands = false) := by
  refine ⟨?_, ?_, ?_, ?_, ?_⟩
  · intro h cands
    simp [locations_allowed, h]
  · intro cands c hmem hint
    by_cases ha : allowed = []
    · simp [locations_allowed, ha]
    · unfold locations_allowed
      rw [if_neg ha]
      exact locationsLoop_true_of_accepted allowed ku cands ⟨c, hmem, hint⟩ false
  · intro pre c post post' hint
    by_cases ha : allowed = []
    · simp [locations_allowed, ha]
    · unfold locations_allowed
      rw [if_neg ha]
      rw [locationsLoop_true_of_accepted allowed ku (pre ++ c :: post)
        ⟨c, List.mem_append.mpr (Or.inr (List.mem_cons_self _ _)), hint⟩ false]
      rw [locationsLoop_true_of_accepted allowed ku (pre ++ c :: post')
        ⟨c, List.mem_append.mpr (Or.inr (List.mem_cons_self _ _)), hint⟩ false]
      simp
  · intro ha cands h
    unfold locations_allowed
    rw [if_neg ha]
    rw [locationsLoop_unknown allowed ku cands h false]
    rfl
  · intro ha cands hne h
    unfold locations_allowed
    rw [if_neg ha]
    exact locationsLoop_false_of_rejected allowed ku cands hne h false

/-- Witness for C5: each part of the decision evaluated at concrete inputs. -/
theorem C5_locations_allowed_decision_witness :
    locations_allowed [] false ["London, UK".data] = true
    ∧ locations_allowed ["US"] false ["Austin, TX".data] = true
    ∧ locations_allowed ["US"] false ([] ++ "Austin, TX".data :: ["London, UK".data])
        = locations_allowed ["US"] false ([] ++ "Austin, TX".data :: [])
    ∧ locations_allowed ["US"] true ["Remote".data] = true
    ∧ locations_allowed ["US"] true ["Toronto, ON".data] = false := by
  refine ⟨?_, ?_, ?_, ?_, ?_⟩
  · exact (C5_locations_allowed_decision [] false).1 rfl _
  · exact (C5_locations_allowed_decision ["US"] false).2.1
      ["Austin, TX".data] "Austin, TX".data (by simp) (by decide)
  · exact (C5_locations_allowed_decision ["US"] false).2.2.1
      [] "Austin, TX".data ["London, UK".data] [] (by decide)
  · exact (C5_locations_allowed_decision ["US"] true).2.2.2.1
      (by decide) ["Remote".data] (by decide)
  · exact (C5_locations_allowed_decision ["US"] true).2.2.2.2
      (by decide) ["Toronto, ON".data] (by decide) (by decide)

/-! ### Helper lemmas about substring containment -/

theorem containsSub_hay_ne_nil (n h : List Char)
    (hc : containsSub n h = true) (hn : n ≠ []) : h ≠ [] := by
  intro h0
  subst h0
  cases n with
  | nil => exact hn rfl
  | cons a as => simp [containsSub, leadMatch] at hc

/-- C2 counterexample: the Greenhouse scraper performs no within-invocation
de-duplication, so two raw jobs with the same `absolute_url` and different
title casing yield two emitted records sharing one URL. -/
theorem C2_greenhouse_emits_duplicate_urls :
    (scrape_greenhouse_jobs ["US", "CA"] true false false "X".data
        ["software engineer".data] [ghDupA, ghDupB]).map GHRecord.url
      = [some "https://boards.greenhouse.io/x/jobs/1".data,
         some "https://boards.greenhouse.io/x/jobs/1".data] := by decide

/-- C7 counterexample: called with an empty keyword-filter list, the
Greenhouse scraper emits a record whose title is the source's blank title
verbatim (no fallback synthesis, no drop). -/
theorem C7_greenhouse_emits_blank_title :
    (scrape_greenhouse_jobs ["US", "CA"] true false false "X".data []
        [ghBlankTitleJob]).map GHRecord.title = [[]] := by decide

/-- C7 (amended): when the keyword-filter list is non-empty and all its
keywords are non-empty, every record the Greenhouse scraper emits has a
non-empty title, because a blank title cannot contain any keyword. -/
theorem C7_greenhouse_nonempty_titles (allowed : List String)
    (ku ngo inc : Bool) (company : List Char) (kw : List (List Char))
    (jobs : List GHJob) (r : GHRecord)
    (hkw : kw ≠ []) (hks : ∀ k ∈ kw, k ≠ [])
    (hr : r ∈ scrape_greenhouse_jobs allowed ku ngo inc company kw jobs) :
    r.title ≠ [] := by
  induction jobs with
  | nil => simp [scrape_greenhouse_jobs] at hr
  | cons j rest ih =>
    rw [scrape_greenhouse_jobs] at hr
    split at hr
    · exact ih hr
    · next h1 =>
      split at hr
      · exact ih hr
      · split at hr
        · exact ih hr
        · rcases List.mem_cons.mp hr with rfl | hmem
          · have hany : kw.any (fun k => containsSub (lowerL k) (lowerL j.title)) = true := by
              by_contra hno
              exact h1 (by simp [hkw, hno])
            obtain ⟨k, hkmem, hksub⟩ := List.any_eq_true.mp hany
            have hkne : lowerL k ≠ [] := by
              intro h0
              exact hks k hkmem (List.map_eq_nil_iff.mp h0)
            have htl : lowerL j.title ≠ [] :=
              containsSub_hay_ne_nil _ _ hksub hkne
            have : j.title ≠ [] := by
              intro h0
              exact htl (by simp [lowerL, h0])
            simpa [ghRow] using this
          · exact ih hmem

/-- Witness for the amended C7 at a concrete fixture. -/
theorem C7_greenhouse_nonempty_titles_witness :
    ((scrape_greenhouse_jobs ["US", "CA"] true false false "TestCorp".data
        ["software engineer".data] [ghJobW]).get ⟨0, by decide⟩).title ≠ [] :=
  C7_greenhouse_nonempty_titles ["US", "CA"] true false false "TestCorp".data
    ["software engineer".data] [ghJobW] _ (by decide)
    (by intro k hk; simp at hk; subst hk; decide)
    (List.get_mem _ _ _)

/-- C10: with an empty keyword-filter list the Ashby scraper emits nothing at
all (its keyword test fails for every title), while the Greenhouse scraper
skips its keyword gate entirely and can still emit records. -/
theorem C10_empty_keyword_list_divergence :
    (∀ (allowed : List String) (ku ngo inc : Bool) (company : List Char)
        (jobs : List AshbyJob),
        scrape_ashby_jobs allowed ku ngo inc company [] jobs = [])
    ∧ scrape_greenhouse_jobs ["US", "CA"] true false false "TestCorp".data []
        [ghJobW] ≠ [] := by
  constructor
  · intro allowed ku ngo inc company jobs
    induction jobs with
    | nil => rfl
    | cons j rest ih => simpa [scrape_ashby_jobs] using ih
  · decide

/-- C3 counterexample: the title `New Grad Software Engineer IV` contains the
early-career marker `new grad`, yet `_is_new_grad_friendly` classifies it as
not new-grad friendly (the seniority check runs first), and the Ashby filter
loop under its default new-grad-only gating drops the record — while the same
record without the seniority marker is kept. -/
theorem C3_seniority_beats_new_grad_in_ashby :
    containsSub "new grad".data (lowerL "New Grad Software Engineer IV".data) = true
    ∧ is_new_grad_friendly false "New Grad Software Engineer IV".data = false
    ∧ scrape_ashby_jobs ["US", "CA"] false true false "X".data
        ["new grad".data] [ashbyC3A] = []
    ∧ scrape_ashby_jobs ["US", "CA"] false true false "X".data
        ["new grad".data] [ashbyC3B] ≠ [] := by
  refine ⟨by decide, by decide, by decide, by decide⟩

/-! ### De-duplication invariants of the Apple filter loops -/

set_option maxHeartbeats 3000000 in
/-- One strict step either keeps `seen_ids` or conses the item's job id. -/
theorem appleStrictStep_ids (allowed : List String) (strim eonly : Bool)
    (seenIds : List (List Char)) (seenPairs : List (List Char × List Char))
    (it : AppleItem) :
    (appleStrictStep allowed strim eonly seenIds seenPairs it).2.1 = seenIds
    ∨ (appleStrictStep allowed strim eonly seenIds seenPairs it).2.1
        = job_id_from_url (stripL it.url) :: seenIds := by
  simp only [appleStrictStep]
  repeat' split
  all_goals simp

set_option maxHeartbeats 3000000 in
/-- A record kept by a strict step with a numeric job id has an id absent from
the incoming `seen_ids`, and the id is recorded in the outgoing set. -/
theorem appleStrictStep_keep (allowed : List String) (strim eonly : Bool)
    (seenIds : List (List Char)) (seenPairs : List (List Char × List Char))
    (it : AppleItem) (r : AppleRecord) (ids : List (List Char))
    (prs : List (List Char × List Char))
    (h : appleStrictStep allowed strim eonly seenIds seenPairs it = (some r, ids, prs))
    (hne : job_id_from_url r.url ≠ []) :
    job_id_from_url r.url ∉ seenIds ∧ ids = job_id_from_url r.url :: seenIds := by
  simp only [appleStrictStep] at h
  split at h
  · exact absurd h (by simp)
  · split at h
    · exact absurd h (by simp)
    · next hdup =>
      by_cases ht : stripL it.title = []
      · rw [ht, if_neg (show ¬(([] : List Char) ≠ []) by simp)] at h
        split at h
        next => exact absurd h (by simp)
        next =>
        split at h
        next => exact absurd h (by simp)
        next =>
        split at h
        next => exact absurd h (by simp)
        next =>
        split at h
        next => exact absurd h (by simp)
        next =>
        split at h
        next => exact absurd h (by simp)
        next =>
        simp only [Prod.mk.injEq, Option.some.injEq] at h
        obtain ⟨h1, h2, h3⟩ := h
        subst h1
        have hne2 : job_id_from_url (stripL it.url) ≠ [] := hne
        refine ⟨fun hm => hdup ?_, ?_⟩
        · have hm2 : job_id_from_url (stripL it.url) ∈ seenIds := hm
          have hc : seenIds.contains (job_id_from_url (stripL it.url)) = true :=
            List.elem_iff.mpr hm2
          rw [decide_eq_true hne2, hc]
          rfl
        · rw [if_pos hne2] at h2
          exact h2.symm
      · rw [if_pos ht] at h
        split at h
        next => exact absurd h (by simp)
        next =>
        split at h
        next => exact absurd h (by simp)
        next =>
        split at h
        next => exact absurd h (by simp)
        next =>
        split at h
        next => exact absurd h (by simp)
        next =>
        split at h
        next => exact absurd h (by simp)
        next =>
        simp only [Prod.mk.injEq, Option.some.injEq] at h
        obtain ⟨h1, h2, h3⟩ := h
        subst h1
        have hne2 : job_id_from_url (stripL it.url) ≠ [] := hne
        refine ⟨fun hm => hdup ?_, ?_⟩
        · have hm2 : job_id_from_url (stripL it.url) ∈ seenIds := hm
          have hc : seenIds.contains (job_id_from_url (stripL it.url)) = true :=
            List.elem_iff.mpr hm2
          rw [decide_eq_true hne2, hc]
          rfl
        · rw [if_pos hne2] at h2
          exact h2.symm

set_option maxHeartbeats 3000000 in
/-- One relaxed step either keeps `seen_ids` or conses the item's job id. -/
theorem appleRelaxedStep_ids (allowed : List String) (seenIds : List (List Char))
    (it : AppleItem) :
    (appleRelaxedStep allowed seenIds it).2 = seenIds
    ∨ (appleRelaxedStep allowed seenIds it).2
        = job_id_from_url (stripL it.url) :: seenIds := by
  simp only [appleRelaxedStep]
  repeat' split
  all_goals simp

set_option maxHeartbeats 3000000 in
/-- A record kept by a relaxed step with a numeric job id has an id absent
from the incoming `seen_ids`, and the id is recorded in the outgoing set. -/
theorem appleRelaxedStep_keep (allowed : List String) (seenIds : List (List Char))
    (it : AppleItem) (r : AppleRecord) (ids : List (List Char))
    (h : appleRelaxedStep allowed seenIds it = (some r, ids))
    (hne : job_id_from_url r.url ≠ []) :
    job_id_from_url r.url ∉ seenIds ∧ ids = job_id_from_url r.url :: seenIds := by
  simp only [appleRelaxedStep] at h
  split at h
  · exact absurd h (by simp)
  · split at h
    · exact absurd h (by simp)
    · split at h
      · exact absurd h (by simp)
      · split at h
        · exact absurd h (by simp)
        · next hdup =>
          simp only [Prod.mk.injEq, Option.some.injEq] at h
          obtain ⟨h1, h2⟩ := h
          subst h1
          have hne2 : job_id_from_url (stripL it.url) ≠ [] := hne
          refine ⟨fun hm => hdup ?_, ?_⟩
          · have hm2 : job_id_from_url (stripL it.url) ∈ seenIds := hm
            have hc : seenIds.contains (job_id_from_url (stripL it.url)) = true :=
              List.elem_iff.mpr hm2
            rw [decide_eq_true hne2, hc]
            rfl
          · rw [if_pos hne2] at h2
            exact h2.symm

/-- Weakening along one step's `seen_ids` update. -/
theorem not_mem_of_step_ids {x j : List Char} {S ids : List (List Char)}
    (hd : ids = S ∨ ids = j :: S) (h : x ∉ ids) : x ∉ S := by
  rcases hd with rfl | rfl
  · exact h
  · exact fun hm => h (List.mem_cons_of_mem _ hm)

/-- Every record the strict Apple pass emits with a numeric job id in its URL
has an id that was not in `seen_ids` when the pass started. -/
theorem appleStrict_fresh (allowed : List String) (strim eonly : Bool) :
    ∀ (pooled : List AppleItem) (seenIds : List (List Char))
      (seenPairs : List (List Char × List Char)) (r : AppleRecord),
      r ∈ appleStrictAux allowed strim eonly seenIds seenPairs pooled →
      job_id_from_url r.url ≠ [] →
      job_id_from_url r.url ∉ seenIds := by
  intro pooled
  induction pooled with
  | nil =>
    intro seenIds seenPairs r hr
    simp [appleStrictAux] at hr
  | cons it rest ih =>
    intro seenIds seenPairs r hr hne
    simp only [appleStrictAux] at hr
    split at hr
    · next ids prs heq =>
      have hd := appleStrictStep_ids allowed strim eonly seenIds seenPairs it
      rw [heq] at hd
      simp only at hd
      exact not_mem_of_step_ids hd (ih _ _ _ hr hne)
    · next r' ids prs heq =>
      rcases List.mem_cons.mp hr with rfl | hmem
      · exact (appleStrictStep_keep allowed strim eonly seenIds seenPairs it
          r ids prs heq hne).1
      · have hd := appleStrictStep_ids allowed strim eonly seenIds seenPairs it
        rw [heq] at hd
        simp only at hd
        exact not_mem_of_step_ids hd (ih _ _ _ hmem hne)

/-- No two records the strict Apple pass emits share a URL carrying a numeric
job id. -/
theorem appleStrict_pairwise (allowed : List String) (strim eonly : Bool) :
    ∀ (pooled : List AppleItem) (seenIds : List (List Char))
      (seenPairs : List (List Char × List Char)),
      List.Pairwise (fun a b => a.url = b.url → job_id_from_url a.url = [])
        (appleStrictAux allowed strim eonly seenIds seenPairs pooled) := by
  intro pooled
  induction pooled with
  | nil => intro seenIds seenPairs; simp [appleStrictAux]
  | cons it rest ih =>
    intro seenIds seenPairs
    simp only [appleStrictAux]
    split
    · exact ih _ _
    · next r' ids prs heq =>
      refine List.Pairwise.cons ?_ (ih _ _)
      intro b hb hequrl
      by_cases hj : job_id_from_url r'.url = []
      · exact hj
      · exfalso
        obtain ⟨-, hids⟩ := appleStrictStep_keep allowed strim eonly seenIds
          seenPairs it r' ids prs heq hj
        have hbne : job_id_from_url b.url ≠ [] := by
          rw [← hequrl]
          exact hj
        have hfresh := appleStrict_fresh allowed strim eonly rest ids prs b hb hbne
        apply hfresh
        rw [← hequrl, hids]
        exact List.mem_cons_self _ _

/-- Freshness for the relaxed rescue pass. -/
theorem appleRelaxed_fresh (allowed : List String) :
    ∀ (pooled : List AppleItem) (seenIds : List (List Char)) (r : AppleRecord),
      r ∈ appleRelaxedAux allowed seenIds pooled →
      job_id_from_url r.url ≠ [] →
      job_id_from_url r.url ∉ seenIds := by
  intro pooled
  induction pooled with
  | nil =>
    intro seenIds r hr
    simp [appleRelaxedAux] at hr
  | cons it rest ih =>
    intro seenIds r hr hne
    simp only [appleRelaxedAux] at hr
    split at hr
    · next ids heq =>
      have hd := appleRelaxedStep_ids allowed seenIds it
      rw [heq] at hd
      simp only at hd
      exact not_mem_of_step_ids hd (ih _ _ hr hne)
    · next r' ids heq =>
      rcases List.mem_cons.mp hr with rfl | hmem
      · exact (appleRelaxedStep_keep allowed seenIds it r ids heq hne).1
      · have hd := appleRelaxedStep_ids allowed seenIds it
        rw [heq] at hd
        simp only at hd
        exact not_mem_of_step_ids hd (ih _ _ hmem hne)

/-- Pairwise distinctness for the relaxed rescue pass. -/
theorem appleRelaxed_pairwise (allowed : List String) :
    ∀ (pooled : List AppleItem) (seenIds : List (List Char)),
      List.Pairwise (fun a b => a.url = b.url → job_id_from_url a.url = [])
        (appleRelaxedAux allowed seenIds pooled) := by
  intro pooled
  induction pooled with
  | nil => intro seenIds; simp [appleRelaxedAux]
  | cons it rest ih =>
    intro seenIds
    simp only [appleRelaxedAux]
    split
    · exact ih _
    · next r' ids heq =>
      refine List.Pairwise.cons ?_ (ih _)
      intro b hb hequrl
      by_cases hj : job_id_from_url r'.url = []
      · exact hj
      · exfalso
        obtain ⟨-, hids⟩ := appleRelaxedStep_keep allowed seenIds it r' ids heq hj
        have hbne : job_id_from_url b.url ≠ [] := by
          rw [← hequrl]
          exact hj
        have hfresh := appleRelaxed_fresh allowed rest ids b hb hbne
        apply hfresh
        rw [← hequrl, hids]
        exact List.mem_cons_self _ _

/-- C2 (amended): the Apple adapter de-duplicates by the numeric job id in
the URL when one is present — any two emitted records sharing a URL must have
an id-less URL — and on two raw records with the same id-carrying URL and
different title casing it emits exactly one record.  (The Greenhouse adapter
violates the original claim: see `C2_greenhouse_emits_duplicate_urls`.) -/
theorem C2_apple_dedup_by_job_id :
    (∀ (allowed : List String) (strim eonly : Bool) (pooled : List AppleItem),
      List.Pairwise (fun a b => a.url = b.url → job_id_from_url a.url = [])
        (scrape_apple_jobs allowed strim eonly pooled))
    ∧ (scrape_apple_jobs ["US", "CA"] true false [appleDupA, appleDupB]).map
        AppleRecord.title = ["New Grad Software Engineer".data] := by
  constructor
  · intro allowed strim eonly pooled
    simp only [scrape_apple_jobs]
    split
    · exact appleRelaxed_pairwise allowed pooled []
    · exact appleStrict_pairwise allowed strim eonly pooled [] []
  · decide

/-! ### From substring containment to regex-search success -/

theorem leadMatch_iff (n : List Char) :
    ∀ h : List Char, leadMatch n h = true ↔ ∃ s, h = n ++ s := by
  induction n with
  | nil =>
    intro h
    simp [leadMatch]
  | cons a as ih =>
    intro h
    cases h with
    | nil => simp [leadMatch]
    | cons b bs =>
      simp only [leadMatch, Bool.and_eq_true, decide_eq_true_eq, ih]
      constructor
      · rintro ⟨rfl, s, rfl⟩
        exact ⟨s, rfl⟩
      · rintro ⟨s, hs⟩
        cases hs
        exact ⟨rfl, s, rfl⟩

theorem containsSub_iff (n : List Char) :
    ∀ h : List Char, containsSub n h = true ↔ ∃ p s, h = p ++ n ++ s := by
  intro h
  induction h with
  | nil =>
    simp only [containsSub, leadMatch_iff]
    constructor
    · rintro ⟨s, hs⟩
      exact ⟨[], s, by simpa using hs⟩
    · rintro ⟨p, s, hs⟩
      have h0 : p = [] ∧ n = [] ∧ s = [] := by
        simpa [List.append_assoc] using hs.symm
      exact ⟨[], by simp [h0.2.1]⟩
  | cons c cs ih =>
    simp only [containsSub, Bool.or_eq_true, leadMatch_iff, ih]
    constructor
    · rintro (⟨s, hs⟩ | ⟨p, s, hs⟩)
      · exact ⟨[], s, by simpa using hs⟩
      · exact ⟨c :: p, s, by simp [hs]⟩
    · rintro ⟨p, s, hs⟩
      cases p with
      | nil => exact Or.inl ⟨s, by simpa using hs⟩
      | cons d ds =>
        rw [List.cons_append, List.cons_append] at hs
        cases hs
        exact Or.inr ⟨ds, s, rfl⟩

/-- If some alternative matches at the scan position after `pre`, the whole
search succeeds. -/
theorem regexHitAux_suffix (alts : List RegAlt) :
    ∀ (pre : List Char) (prev : Option Char) (suf : List Char),
      alts.any (fun a => altHitsAt a (lastOf prev pre) suf) = true →
      regexHitAux alts prev (pre ++ suf) = true := by
  intro pre
  induction pre with
  | nil =>
    intro prev suf h
    cases suf with
    | nil => simpa [regexHitAux, lastOf] using h
    | cons c cs => simp [regexHitAux, lastOf] at h ⊢; exact Or.inl h
  | cons c pre' ih =>
    intro prev suf h
    rw [List.cons_append]
    simp only [regexHitAux, Bool.or_eq_true]
    exact Or.inr (ih (some c) suf h)

theorem runPat_append (p1 p2 : List PatItem) :
    ∀ sts, runPat (p1 ++ p2) sts = runPat p2 (runPat p1 sts) := by
  induction p1 with
  | nil => intro sts; rfl
  | cons it rest ih => intro sts; simp [runPat, ih]

theorem runPat_subset (pat : List PatItem) :
    ∀ (S1 S2 : List MatchSt), (∀ x ∈ S1, x ∈ S2) →
      ∀ x ∈ runPat pat S1, x ∈ runPat pat S2 := by
  induction pat with
  | nil => intro S1 S2 hsub x hx; exact hsub x hx
  | cons it rest ih =>
    intro S1 S2 hsub x hx
    simp only [runPat] at hx ⊢
    refine ih _ _ ?_ x hx
    intro y hy
    rw [List.mem_flatMap] at hy ⊢
    obtain ⟨st, hst, hy2⟩ := hy
    exact ⟨st, hsub st hst, hy2⟩

/-- Running a pure-literal pattern over matching text consumes exactly it. -/
theorem runPat_lit (w : List Char) :
    ∀ (s : List Char), lowerL w = lowerL s →
      ∀ (prev : Option Char) (t : List Char),
        runPat (w.map PatItem.lit) [(prev, s ++ t)] = [(lastOf prev s, t)] := by
  induction w with
  | nil =>
    intro s hw prev t
    have hs : s = [] := by
      have h1 : List.map Char.toLower s = [] := by simpa [lowerL] using hw.symm
      simpa using List.map_eq_nil_iff.mp h1
    subst hs
    rfl
  | cons c w' ih =>
    intro s hw prev t
    cases s with
    | nil => simp [lowerL] at hw
    | cons d s' =>
      simp only [lowerL, List.map_cons, List.cons.injEq] at hw
      obtain ⟨hc, hw'⟩ := hw
      simp only [List.map_cons, runPat, List.cons_append, List.flatMap_cons,
        List.flatMap_nil, List.append_nil, stepItem, hc, if_pos]
      exact ih s' hw' (some d) t

/-- The zero-or-more split always offers the state that consumes nothing. -/
theorem starSplits_self (p : Char → Bool) (prev : Option Char) (r : List Char) :
    (prev, r) ∈ starSplits p prev r := by
  cases r <;> simp [starSplits]

/-- The only character whose `toLower` is a space is the space itself. -/
theorem eq_space_of_toLower (c : Char) (h : c.toLower = ' ') : c = ' ' := by
  simp only [Char.toLower] at h
  split at h
  · next hc =>
    exfalso
    obtain ⟨h1, h2⟩ := hc
    generalize hg : c.toNat = n at h1 h2 h
    interval_cases n <;> exact absurd h (by decide)
  · exact h

/-- Any title containing `new grad` (in any casing) is matched by
`EARLY_SIGNS_RE`. -/
theorem earlySignsRE_hits_new_grad (t : List Char)
    (h : containsSub "new grad".data (lowerL t) = true) :
    regexHit earlySignsRE t = true := by
  obtain ⟨P, S, hPS⟩ := (containsSub_iff _ _).mp h
  have hPS' : lowerL t = P ++ ("new".data ++ (' ' :: ("grad".data ++ S))) := by
    simpa [List.append_assoc] using hPS
  obtain ⟨tp, rest1, ht1, hmp, hrest1⟩ := List.map_eq_append_iff.mp hPS'
  obtain ⟨tn, rest2, ht2, hmn, hrest2⟩ := List.map_eq_append_iff.mp hrest1
  obtain ⟨tc, rest3, ht3, hmc, hrest3⟩ := List.map_eq_cons_iff.mp hrest2
  obtain ⟨tg, ts, ht4, hmg, hms⟩ := List.map_eq_append_iff.mp hrest3
  have htc : tc = ' ' := eq_space_of_toLower tc hmc
  subst htc ht4 ht3 ht2 ht1
  -- the end state of matching `new\s*grad` at the found position
  have hnew : runPat (litItems "new")
      [(lastOf none tp, tn ++ (' ' :: (tg ++ ts)))]
      = [(lastOf (lastOf none tp) tn, ' ' :: (tg ++ ts))] :=
    runPat_lit "new".data tn
      (by simp only [lowerL]; rw [hmn]; decide) (lastOf none tp) (' ' :: (tg ++ ts))
  have hgrad : runPat (litItems "grad")
      [(some ' ', tg ++ ts)] = [(lastOf (some ' ') tg, ts)] :=
    runPat_lit "grad".data tg
      (by simp only [lowerL]; rw [hmg]; decide) (some ' ') ts
  have hsp : ((some ' ', tg ++ ts) : MatchSt)
      ∈ starSplits isWhite (lastOf (lastOf none tp) tn) (' ' :: (tg ++ ts)) := by
    simp only [starSplits, if_pos (show isWhite ' ' = true by decide)]
    exact List.mem_cons_of_mem _ (starSplits_self _ _ _)
  have hend : ((lastOf (some ' ') tg, ts) : MatchSt)
      ∈ patEnds (litItems "new" ++ [wsStar] ++ litItems "grad")
          (lastOf none tp) (tn ++ (' ' :: (tg ++ ts))) := by
    unfold patEnds
    rw [List.append_assoc, runPat_append, hnew]
    show _ ∈ runPat (wsStar :: litItems "grad") _
    have hstep : ([(lastOf (lastOf none tp) tn, ' ' :: (tg ++ ts))] : List MatchSt).flatMap
        (stepItem wsStar)
        = starSplits isWhite (lastOf (lastOf none tp) tn) (' ' :: (tg ++ ts)) := by
      simp [stepItem, wsStar]
    rw [show runPat (wsStar :: litItems "grad")
          [(lastOf (lastOf none tp) tn, ' ' :: (tg ++ ts))]
        = runPat (litItems "grad")
            (([(lastOf (lastOf none tp) tn, ' ' :: (tg ++ ts))] : List MatchSt).flatMap
              (stepItem wsStar)) from rfl, hstep]
    refine runPat_subset _ [(some ' ', tg ++ ts)] _ ?_ _ ?_
    · intro x hx
      simp only [List.mem_singleton] at hx
      subst hx
      exact hsp
    · rw [hgrad]
      exact List.mem_singleton.mpr rfl
  have halt : altHitsAt ⟨false, litItems "new" ++ [wsStar] ++ litItems "grad", false⟩
      (lastOf none tp) (tn ++ (' ' :: (tg ++ ts))) = true := by
    simp only [altHitsAt, Bool.not_false, Bool.true_or, Bool.true_and]
    exact List.any_eq_true.mpr ⟨_, hend, by simp⟩
  have hany : earlySignsRE.any
      (fun a => altHitsAt a (lastOf none tp) (tn ++ (' ' :: (tg ++ ts)))) = true := by
    refine List.any_eq_true.mpr ⟨_, ?_, halt⟩
    simp [earlySignsRE]
  exact regexHitAux_suffix earlySignsRE tp none _ hany

/-- C3 (amended): in the Microsoft adapter the early-career signal wins
ties: `EARLY_SIGNS_RE` matches every title containing `new grad` in any
casing, and both the manager gate `_looks_manager(t) and not
_has_early_signal` and the seniority-trim gate `SENIORITY_TRIM and
_has_senior_signal and not _has_early_signal` require the absence of the
early signal, so neither ever drops such a title; a concrete
senior-plus-new-grad title passes the whole Microsoft filter loop.  The
Apple adapter's seniority-trim gate has the same shape and likewise yields,
but its manager filtering is the unconditional `MANAGER_HINTS` check inside
`_looks_engineering`, which has no early-career exemption: whenever a
manager hint occurs in the lowercased title, `_looks_engineering` is false
for every URL, and the concrete pooled title `New Grad Program Manager` is
dropped by the whole Apple pipeline (its URL carries no `team` parameter,
so the relaxed rescue pass drops it too) despite its early signal.  (In the
Greenhouse/Ashby `_is_new_grad_friendly` the seniority check runs first and
wins instead: see `C3_seniority_beats_new_grad_in_ashby`.) -/
theorem C3_early_career_gate_interactions (t : List Char)
    (h : containsSub "new grad".data (lowerL t) = true) :
    regexHit earlySignsRE t = true
    ∧ (looksManager (lowerL t) && !regexHit earlySignsRE t) = false
    ∧ (∀ strim : Bool,
        (strim && regexHit seniorHintsRE t && !regexHit earlySignsRE t) = false)
    ∧ (∀ url : List Char,
        appleManagerHints.any (fun hint => containsSub hint.data (lowerL t)) = true →
        looks_engineering t url = false)
    ∧ (scrape_microsoft_jobs true false ["new grad".data] [msftSeniorNewGrad]).map
        MsftRecord.title = ["Senior New Grad Software Engineer".data]
    ∧ scrape_apple_jobs ["US"] true false [appleNewGradPM] = [] := by
  have he := earlySignsRE_hits_new_grad t h
  refine ⟨he, by simp [he], fun strim => by simp [he], fun url hm => ?_,
    by decide, by decide⟩
  simp [looks_engineering, hm]

/-- Witness for C3 (amended) at titles carrying both signals: the Microsoft
conjuncts at `Senior New Grad Software Engineer`, the Apple manager-gate and
pipeline conjuncts at `New Grad Program Manager`. -/
theorem C3_early_career_gate_interactions_witness :
    (regexHit earlySignsRE "Senior New Grad Software Engineer".data = true
      ∧ (looksManager (lowerL "Senior New Grad Software Engineer".data)
          && !regexHit earlySignsRE "Senior New Grad Software Engineer".data) = false
      ∧ (∀ strim : Bool, (strim
          && regexHit seniorHintsRE "Senior New Grad Software Engineer".data
          && !regexHit earlySignsRE "Senior New Grad Software Engineer".data) = false)
      ∧ (scrape_microsoft_jobs true false ["new grad".data] [msftSeniorNewGrad]).map
          MsftRecord.title = ["Senior New Grad Software Engineer".data])
    ∧ looks_engineering "New Grad Program Manager".data
        "https://jobs.apple.com/en-us/details/999999/new-grad-program-manager".data
        = false
    ∧ scrape_apple_jobs ["US"] true false [appleNewGradPM] = [] := by
  have hs := C3_early_career_gate_interactions
    "Senior New Grad Software Engineer".data (by decide)
  have ha := C3_early_career_gate_interactions
    "New Grad Program Manager".data (by decide)
  exact ⟨⟨hs.1, hs.2.1, hs.2.2.1, hs.2.2.2.2.1⟩,
    ha.2.2.2.1
      "https://jobs.apple.com/en-us/details/999999/new-grad-program-manager".data
      (by decide),
    ha.2.2.2.2.2⟩

/-- C4 counterexample: the Lever adapter consults no location classifier at
all — with an `{US}` allow-list configuration it still emits a record whose
only location string infers exactly `{CA}`, which `_locations_allowed` would
reject. -/
theorem C4_lever_emits_disallowed_location :
    (scrape_lever_jobs "X".data ["software engineer".data] [leverTorontoPost]).map
        LeverRecord.location = ["Toronto, ON".data]
    ∧ infer_countries_from_location "Toronto, ON".data = ["CA"]
    ∧ locations_allowed ["US"] true ["Toronto, ON".data] = false := by
  refine ⟨by decide, by decide, by decide⟩

/-- C4 (amended): the Greenhouse adapter (like Ashby and Apple, unlike Lever
and Microsoft) does gate every emitted record on the allowed-country
decision: every record it returns is the row of some raw job whose collected
location strings passed `_locations_allowed`. -/
theorem C4_greenhouse_location_gate (allowed : List String) (ku ngo inc : Bool)
    (company : List Char) (kw : List (List Char)) (jobs : List GHJob)
    (r : GHRecord)
    (hr : r ∈ scrape_greenhouse_jobs allowed ku ngo inc company kw jobs) :
    ∃ j ∈ jobs, r = ghRow company j
      ∧ locations_allowed allowed ku (collect_location_strings j) = true := by
  induction jobs with
  | nil => simp [scrape_greenhouse_jobs] at hr
  | cons j rest ih =>
    rw [scrape_greenhouse_jobs] at hr
    split at hr
    · obtain ⟨j', hj', hres⟩ := ih hr
      exact ⟨j', List.mem_cons_of_mem _ hj', hres⟩
    · split at hr
      · obtain ⟨j', hj', hres⟩ := ih hr
        exact ⟨j', List.mem_cons_of_mem _ hj', hres⟩
      · split at hr
        · obtain ⟨j', hj', hres⟩ := ih hr
          exact ⟨j', List.mem_cons_of_mem _ hj', hres⟩
        · next h3 =>
          rcases List.mem_cons.mp hr with rfl | hmem
          · refine ⟨j, List.mem_cons_self _ _, rfl, ?_⟩
            simpa using h3
          · obtain ⟨j', hj', hres⟩ := ih hmem
            exact ⟨j', List.mem_cons_of_mem _ hj', hres⟩

/-- Witness for the amended C4 at a concrete fixture. -/
theorem C4_greenhouse_location_gate_witness :
    ∃ j ∈ [ghJobW],
      (scrape_greenhouse_jobs ["US", "CA"] true false false "TestCorp".data
          ["software engineer".data] [ghJobW]).get ⟨0, by decide⟩
        = ghRow "TestCorp".data j
      ∧ locations_allowed ["US", "CA"] true (collect_location_strings j) = true :=
  C4_greenhouse_location_gate ["US", "CA"] true false false "TestCorp".data
    ["software engineer".data] [ghJobW] _ (List.get_mem _ _ _)

/-! ### C1, C6, C9: the orchestrator -/

theorem mem_setAddG {α : Type} [BEq α] [LawfulBEq α] (u x : α) (s : List α) :
    u ∈ setAddG x s ↔ u = x ∨ u ∈ s := by
  unfold setAddG
  split
  · next hc =>
    constructor
    · exact Or.inr
    · rintro (rfl | h)
      · exact List.elem_iff.mp hc
      · exact h
  · simp [List.mem_cons]

/-- The `new_jobs_found` component of the orchestrator loop is exactly the
filter of the input by "non-empty URL not previously seen". -/
theorem mainLoopAux_new (seen : List (List Char)) :
    ∀ (jobs : List MainJob) (newAcc : List MainJob) (urlAcc : List (List Char)),
      (mainLoopAux seen newAcc urlAcc jobs).1
        = newAcc ++ jobs.filter
            (fun j => jobUrl j ≠ [] && !(seen.contains (jobUrl j))) := by
  intro jobs
  induction jobs with
  | nil => intro newAcc urlAcc; simp [mainLoopAux]
  | cons j rest ih =>
    intro newAcc urlAcc
    simp only [mainLoopAux]
    by_cases hu : jobUrl j = []
    · rw [if_pos hu, ih]
      congr 1
      rw [List.filter_cons]
      simp [hu]
    · rw [if_neg hu]
      by_cases hs : seen.contains (jobUrl j) = true
      · have hmem : jobUrl j ∈ seen := List.elem_iff.mp hs
        rw [if_pos hs, ih]
        congr 1
        rw [List.filter_cons]
        simp [hu, hmem]
      · have hnm : jobUrl j ∉ seen := fun hm => hs (List.elem_iff.mpr hm)
        rw [if_neg hs, ih]
        rw [List.filter_cons]
        simp [hu, hnm, List.append_assoc]

/-- The `current_job_urls` component contains exactly the non-empty stripped
URLs of the input (plus whatever was accumulated). -/
theorem mainLoopAux_urls (seen : List (List Char)) :
    ∀ (jobs : List MainJob) (newAcc : List MainJob) (urlAcc : List (List Char))
      (u : List Char),
      u ∈ (mainLoopAux seen newAcc urlAcc jobs).2
        ↔ (u ∈ urlAcc ∨ ∃ j ∈ jobs, jobUrl j = u ∧ u ≠ []) := by
  intro jobs
  induction jobs with
  | nil => intro newAcc urlAcc u; simp [mainLoopAux]
  | cons j rest ih =>
    intro newAcc urlAcc u
    simp only [mainLoopAux]
    by_cases hu : jobUrl j = []
    · rw [if_pos hu, ih]
      constructor
      · rintro (h | ⟨x, hx, hxu⟩)
        · exact Or.inl h
        · exact Or.inr ⟨x, List.mem_cons_of_mem _ hx, hxu⟩
      · rintro (h | ⟨x, hx, hxu, hne⟩)
        · exact Or.inl h
        · rcases List.mem_cons.mp hx with rfl | hx'
          · exact absurd (hxu.symm.trans hu) hne
          · exact Or.inr ⟨x, hx', hxu, hne⟩
    · rw [if_neg hu, ih]
      constructor
      · rintro (hmem | ⟨x, hx, hxu⟩)
        · rcases (mem_setAddG u (jobUrl j) urlAcc).mp hmem with rfl | h
          · exact Or.inr ⟨j, List.mem_cons_self _ _, rfl, hu⟩
          · exact Or.inl h
        · exact Or.inr ⟨x, List.mem_cons_of_mem _ hx, hxu⟩
      · rintro (h | ⟨x, hx, hxu, hne⟩)
        · exact Or.inl ((mem_setAddG u (jobUrl j) urlAcc).mpr (Or.inr h))
        · rcases List.mem_cons.mp hx with rfl | hx'
          · exact Or.inl ((mem_setAddG u (jobUrl x) urlAcc).mpr (Or.inl hxu.symm))
          · exact Or.inr ⟨x, hx', hxu, hne⟩

/-- C9: when the configuration file is missing, the run aborts — no adapter
is invoked, no new jobs are produced, and the seen-jobs state file is never
written. -/
theorem C9_config_missing_aborts (seen : List (List Char)) :
    run_scrapers none seen
      = { configFailed := true, adaptersInvoked := false,
          newJobs := [], saved := none } := rfl

/-- C1 counterexample: when the run produced zero records, the code re-saves
the previous seen set unchanged instead of overwriting it with the (empty)
current URL set. -/
theorem C1_zero_records_resaves_previous :
    (run_scrapers (some [[]]) [['u']]).saved = some [['u']]
    ∧ (run_scrapers (some [[]]) [['u']]).saved ≠ some [] := by
  refine ⟨by decide, by decide⟩

/-- C1 (amended): when the run produced at least one record, the persisted
seen set is exactly the set of non-empty URLs of the current run's records —
independent of the previous seen set, so no union with it — while a run with
zero records re-saves the previous seen set unchanged. -/
theorem C1_seen_set_overwrite (seen : List (List Char))
    (lists : List (List MainJob)) :
    (lists.flatten ≠ [] →
      ∀ u, u ∈ ((run_scrapers (some lists) seen).saved.getD [])
        ↔ ∃ j ∈ lists.flatten, jobUrl j = u ∧ u ≠ [])
    ∧ (lists.flatten = [] →
        (run_scrapers (some lists) seen).saved = some seen) := by
  constructor
  · intro hne u
    simp only [run_scrapers]
    rw [if_neg hne]
    simp only [Option.getD_some]
    rw [mainLoopAux_urls seen lists.flatten [] [] u]
    simp
  · intro he
    simp [run_scrapers, he]

/-- Witness for C1 (amended): one record present, and the zero-record case. -/
theorem C1_seen_set_overwrite_witness :
    ("http://a.com/1".data
        ∈ ((run_scrapers (some [[mainJob1]]) [['u']]).saved.getD [])
      ↔ ∃ j ∈ ([[mainJob1]] : List (List MainJob)).flatten,
          jobUrl j = "http://a.com/1".data ∧ "http://a.com/1".data ≠ [])
    ∧ (run_scrapers (some ([[]] : List (List MainJob))) [['u']]).saved
        = some [['u']] :=
  ⟨(C1_seen_set_overwrite [['u']] [[mainJob1]]).1 (by decide) "http://a.com/1".data,
   (C1_seen_set_overwrite [['u']] [[]]).2 (by decide)⟩

/-- C6: the `new` subset handed to the reporting/notification collaborators
is exactly the records with a non-empty URL not in the previous seen set
(empty-URL records appear in neither the new subset nor the URL set), and on
scenario C (`seen = {a/1}`, current URLs `{a/1, a/2}`) the new subset is
exactly the `a/2` record and the persisted set holds exactly both URLs. -/
theorem C6_new_partition :
    (∀ (seen : List (List Char)) (jobs : List MainJob),
      (mainLoopAux seen [] [] jobs).1
        = jobs.filter (fun j => jobUrl j ≠ [] && !(seen.contains (jobUrl j)))
      ∧ ∀ u, u ∈ (mainLoopAux seen [] [] jobs).2
          ↔ ∃ j ∈ jobs, jobUrl j = u ∧ u ≠ [])
    ∧ (run_scrapers (some [[mainJob1, mainJob2]]) ["http://a.com/1".data]).newJobs
        = [mainJob2]
    ∧ (run_scrapers (some [[mainJob1, mainJob2]]) ["http://a.com/1".data]).saved
        = some ["http://a.com/2".data, "http://a.com/1".data] := by
  refine ⟨?_, by decide, by decide⟩
  intro seen jobs
  constructor
  · simpa using mainLoopAux_new seen jobs [] []
  · intro u
    rw [mainLoopAux_urls seen jobs [] [] u]
    simp
